import Mathlib

set_option maxRecDepth 100000

/-!
Verification of the markdown extraction engine of `main.go` (package main of
the coach-ai repository).  The Go source is shallowly embedded: every function
of the source that the claims mention is translated into an executable Lean
definition over `List Char` (Go strings are byte strings; the embedding works
at rune granularity and uses explicit UTF-8 byte lengths where Go measures
bytes).  Regular-expression calls in the source are compiled by hand into the
equivalent scanning functions; each definition documents the regex it embeds.
-/

namespace CoachAI

/-- Character class of the Go regexp escape for whitespace inside the patterns
of main.go: space, tab, newline, form feed, carriage return (vertical tab is
not included by the Go regexp engine). -/
def regexSpace (c : Char) : Bool :=
  c == ' ' || c == '\t' || c == '\n' || c == '\x0c' || c == '\r'

/-- The predicate unicode.IsSpace used by strings.TrimSpace and strings.Fields
in Go: ASCII whitespace plus NEL, NBSP and the Unicode space separators. -/
def goIsSpace (c : Char) : Bool :=
  c == ' ' || c == '\t' || c == '\n' || c == '\x0b' || c == '\x0c' || c == '\r' ||
  c.val == 0x85 || c.val == 0xa0 || c.val == 0x1680 ||
  (0x2000 ≤ c.val && c.val ≤ 0x200a) ||
  c.val == 0x2028 || c.val == 0x2029 || c.val == 0x202f || c.val == 0x205f ||
  c.val == 0x3000

/-- strings.TrimSpace: drop unicode.IsSpace characters from both ends. -/
def goTrimSpace (l : List Char) : List Char :=
  ((l.dropWhile goIsSpace).reverse.dropWhile goIsSpace).reverse

/-- Case mapping used by strings.ToUpper, modeled for ASCII letters.  Go
applies the full Unicode mapping; the embedding maps non-ASCII characters to
themselves, which is exact for every ASCII input. -/
def toUpperChar (c : Char) : Char :=
  if 'a' ≤ c && c ≤ 'z' then Char.ofNat (c.toNat - 32) else c

/-- Case mapping used by strings.ToLower, modeled for ASCII letters (see
`toUpperChar` for the modeling note). -/
def toLowerChar (c : Char) : Char :=
  if 'A' ≤ c && c ≤ 'Z' then Char.ofNat (c.toNat + 32) else c

def goToUpper (l : List Char) : List Char := l.map toUpperChar

def goToLower (l : List Char) : List Char := l.map toLowerChar

/-- Number of UTF-8 bytes of one rune; Go len() counts bytes. -/
def charBytes (c : Char) : Nat :=
  if c.val < 0x80 then 1 else if c.val < 0x800 then 2
  else if c.val < 0x10000 then 3 else 4

/-- Go len() of a string: its UTF-8 byte length. -/
def byteLen (l : List Char) : Nat := (l.map charBytes).sum

/-- strings.Count with a one-character separator. -/
def countChar (c : Char) (l : List Char) : Nat := l.countP (· == c)

/-- Decides whether `p` is a prefix of `s` (strings.HasPrefix). -/
def isPrefOf : List Char → List Char → Bool
  | [], _ => true
  | _ :: _, [] => false
  | p :: ps, s :: ss => p == s && isPrefOf ps ss

/-- strings.Index: 0-based position of the first occurrence of `pat` in the
remaining input, scanning left to right. -/
def subIdx (pat : List Char) : List Char → Option Nat
  | [] => if isPrefOf pat [] then some 0 else none
  | c :: rest =>
    if isPrefOf pat (c :: rest) then some 0
    else (subIdx pat rest).map (· + 1)

/-- strings.Contains. -/
def containsSub (s pat : List Char) : Bool := (subIdx pat s).isSome

/-- strings.Split with separator a newline. -/
def splitOnNl : List Char → List (List Char)
  | [] => [[]]
  | c :: rest =>
    if c = '\n' then [] :: splitOnNl rest
    else
      match splitOnNl rest with
      | [] => [[c]]
      | l :: ls => (c :: l) :: ls

/-- strings.Fields helper: accumulate the current word (reversed) while
splitting on unicode.IsSpace runs. -/
def goFieldsGo : List Char → List Char → List (List Char)
  | [], acc => if acc.isEmpty then [] else [acc.reverse]
  | c :: rest, acc =>
    if goIsSpace c then
      if acc.isEmpty then goFieldsGo rest [] else acc.reverse :: goFieldsGo rest []
    else goFieldsGo rest (c :: acc)

/-- strings.Fields: maximal runs of non-whitespace characters. -/
def goFields (l : List Char) : List (List Char) := goFieldsGo l []

/-- allWordsTitleCase of main.go: every space-delimited word starts with an
ASCII capital letter (Go checks the first byte of each word, which for a
non-ASCII first rune is never in the range A-Z, exactly as here). -/
def allWordsTitleCase (l : List Char) : Bool :=
  (goFields l).all fun w =>
    match w with
    | [] => true
    | c :: _ => 'A' ≤ c && c ≤ 'Z'

/-! ## Model of the Go net/url routines used by urlEncode

urlEncode calls url.Parse and URL.String.  The model below translates those
stdlib functions at rune granularity for the subset they exercise here:
scheme, opaque part, authority host (with the optional-port digit check),
path and fragment with percent-escape decoding, validation and re-escaping,
raw query and ForceQuery handling.  Not modeled (all documented where used):
userinfo before an at sign, bracketed IPv6 hosts and percent escapes inside
the host.  Inputs using those fail to parse in the model, so urlEncode falls
back to the raw string there, whereas Go may normalize them.  Non-ASCII
characters are treated as never needing escaping (Go percent-encodes their
UTF-8 bytes when it has to re-encode a component). -/

/-- ASCII control byte test of net/url (b below space, or DEL). -/
def isCtl (c : Char) : Bool := c.val < 0x20 || c.val == 0x7f

def isAlphaCh (c : Char) : Bool := ('a' ≤ c && c ≤ 'z') || ('A' ≤ c && c ≤ 'Z')

def isDigitCh (c : Char) : Bool := '0' ≤ c && c ≤ '9'

def isAlnumCh (c : Char) : Bool := isAlphaCh c || isDigitCh c

/-- Characters net/url shouldEscape leaves raw in a path (mode encodePath):
unreserved characters plus the reserved ones except the question mark. -/
def allowedPath (c : Char) : Bool :=
  isAlnumCh c || c == '-' || c == '_' || c == '.' || c == '~' ||
  c == '$' || c == '&' || c == '+' || c == ',' || c == '/' || c == ':' ||
  c == ';' || c == '=' || c == '@' || 0x80 ≤ c.val

/-- Characters net/url shouldEscape leaves raw in a fragment (mode
encodeFragment): unreserved, every reserved character, and bang, parens,
star. -/
def allowedFrag (c : Char) : Bool :=
  isAlnumCh c || c == '-' || c == '_' || c == '.' || c == '~' ||
  c == '$' || c == '&' || c == '+' || c == ',' || c == '/' || c == ':' ||
  c == ';' || c == '=' || c == '?' || c == '@' ||
  c == '!' || c == '(' || c == ')' || c == '*' || 0x80 ≤ c.val

/-- Characters net/url shouldEscape leaves raw in a host (mode encodeHost). -/
def allowedHost (c : Char) : Bool :=
  isAlnumCh c || c == '-' || c == '_' || c == '.' || c == '~' ||
  c == '!' || c == '$' || c == '&' || c.val == 39 || c == '(' || c == ')' ||
  c == '*' || c == '+' || c == ',' || c == ';' || c == '=' || c == ':' ||
  c == '[' || c == ']' || c == '<' || c == '>' || c == '\"' || 0x80 ≤ c.val

/-- The ASCII bytes net/url shouldEscape leaves raw in host mode, without the
modeling allowance for runes at and above 0x80: this is the byte-level check
the zone unescape applies to a decoded escape value. -/
def hostRawByte (c : Char) : Bool :=
  isAlnumCh c || c == '-' || c == '_' || c == '.' || c == '~' ||
  c == '!' || c == '$' || c == '&' || c.val == 39 || c == '(' || c == ')' ||
  c == '*' || c == '+' || c == ',' || c == ';' || c == '=' || c == ':' ||
  c == '[' || c == ']' || c == '<' || c == '>' || c == '\"'

/-- Characters net/url shouldEscape leaves raw in userinfo (mode
encodeUserPassword): unreserved characters plus the reserved ones except the
at sign, slash, question mark and colon.  Characters at and above 0x80 stand
for non-ASCII runes and are treated as never needing escaping (the same
modeling bound as the other modes). -/
def allowedUserPassword (c : Char) : Bool :=
  isAlnumCh c || c == '-' || c == '_' || c == '.' || c == '~' ||
  c == '$' || c == '&' || c == '+' || c == ',' || c == ';' || c == '=' ||
  0x80 ≤ c.val

/-- net/url validUserinfo: RFC 3986 userinfo characters plus a raw at sign;
the Go loop ranges over runes, so any non-ASCII rune is rejected. -/
def validUserinfo (l : List Char) : Bool :=
  l.all fun r =>
    isAlnumCh r || r == '-' || r == '.' || r == '_' || r == ':' || r == '~' ||
    r == '!' || r == '$' || r == '&' || r.val == 39 || r == '(' || r == ')' ||
    r == '*' || r == '+' || r == ',' || r == ';' || r == '=' || r == '%' ||
    r == '@'

/-- Extra characters accepted raw by net/url validEncoded independently of
the mode. -/
def validEncExtra (c : Char) : Bool :=
  c == '!' || c == '$' || c == '&' || c.val == 39 || c == '(' || c == ')' ||
  c == '*' || c == '+' || c == ',' || c == ';' || c == '=' || c == ':' ||
  c == '@' || c == '[' || c == ']'

/-- net/url validEncoded: every character is an accepted raw character for
the mode or introduces a percent escape (hex digits are not re-checked). -/
def validEncoded (allowed : Char → Bool) (l : List Char) : Bool :=
  l.all fun c => c == '%' || validEncExtra c || allowed c

/-- ASCII hex digit test, upper or lower case (net/url ishex). -/
def ishexCh (c : Char) : Bool :=
  ('0' ≤ c && c ≤ '9') || ('a' ≤ c && c ≤ 'f') || ('A' ≤ c && c ≤ 'F')

/-- Value of an ASCII hex digit (net/url unhex). -/
def unhexV (c : Char) : Nat :=
  if '0' ≤ c && c ≤ '9' then c.toNat - 48
  else if 'a' ≤ c && c ≤ 'f' then c.toNat - 87
  else if 'A' ≤ c && c ≤ 'F' then c.toNat - 55
  else 0

/-- Upper-case hex digit character for a value below 16. -/
def upperHexDigit (n : Nat) : Char :=
  if n < 10 then Char.ofNat (48 + n) else Char.ofNat (55 + n)

/-- net/url unescape in the path, fragment and userinfo modes (encodePath,
encodeFragment, encodeUserPassword): a percent sign must introduce two hex
digits and decodes to the escaped byte, every other character is kept as is
('+' is special only in the query mode, which never reaches unescape here,
and the extra byte checks apply only to the host and zone modes). -/
def unescapeL : List Char → Option (List Char)
  | [] => some []
  | c :: t =>
    if c = '%' then
      match t with
      | a :: b :: t2 =>
        if ishexCh a && ishexCh b then
          (unescapeL t2).map fun r => Char.ofNat (16 * unhexV a + unhexV b) :: r
        else none
      | _ => none
    else (unescapeL t).map fun r => c :: r

/-- net/url unescape in host mode (encodeHost): a raw character the host mode
would escape is rejected, and a percent escape of a byte below 0x80 is
rejected except the escaped percent sign %25 (RFC 6874). -/
def unescapeHostL : List Char → Option (List Char)
  | [] => some []
  | c :: t =>
    if c = '%' then
      match t with
      | a :: b :: t2 =>
        if ishexCh a && ishexCh b then
          if unhexV a < 8 ∧ ¬(a = '2' ∧ b = '5') then none
          else (unescapeHostL t2).map
            fun r => Char.ofNat (16 * unhexV a + unhexV b) :: r
        else none
      | _ => none
    else if allowedHost c then (unescapeHostL t).map fun r => c :: r
    else none

/-- net/url unescape in zone mode (encodeZone): raw characters are checked as
in host mode, and a percent escape is allowed only for %25, the space byte,
or a byte host mode keeps raw. -/
def unescapeZoneL : List Char → Option (List Char)
  | [] => some []
  | c :: t =>
    if c = '%' then
      match t with
      | a :: b :: t2 =>
        if ishexCh a && ishexCh b then
          if ¬(a = '2' ∧ b = '5') ∧ 16 * unhexV a + unhexV b ≠ 32 ∧
              hostRawByte (Char.ofNat (16 * unhexV a + unhexV b)) = false then
            none
          else (unescapeZoneL t2).map
            fun r => Char.ofNat (16 * unhexV a + unhexV b) :: r
        else none
      | _ => none
    else if allowedHost c then (unescapeZoneL t).map fun r => c :: r
    else none

/-- net/url escape: percent-encode every character the mode does not allow
raw. -/
def escapeL (allowed : Char → Bool) : List Char → List Char
  | [] => []
  | c :: rest =>
    if allowed c then c :: escapeL allowed rest
    else '%' :: upperHexDigit (c.toNat / 16) :: upperHexDigit (c.toNat % 16) ::
      escapeL allowed rest

/-- The fields of url.URL the model tracks. -/
structure GoURL where
  scheme : List Char
  /-- The opaque part of a rootless URL (named Opaque in net/url). -/
  opq : List Char
  /-- The userinfo before the at sign: username with an optional password
  (User in net/url; none models a nil *Userinfo). -/
  user : Option (List Char × Option (List Char))
  host : List Char
  omitHost : Bool
  path : List Char
  rawPath : List Char
  forceQuery : Bool
  rawQuery : List Char
  fragment : List Char
  rawFragment : List Char
deriving DecidableEq, Repr

def emptyURL : GoURL :=
  { scheme := [], opq := [], user := none, host := [], omitHost := false,
    path := [], rawPath := [], forceQuery := false, rawQuery := [],
    fragment := [], rawFragment := [] }

/-- Cut a list at the first occurrence of a character: the part before, the
part after (the separator removed), and whether the separator occurred. -/
def cutChar (sep : Char) : List Char → List Char × List Char × Bool
  | [] => ([], [], false)
  | c :: rest =>
    if c = sep then ([], rest, true)
    else
      let r := cutChar sep rest
      (c :: r.1, r.2.1, r.2.2)

/-- Split keeping the separator with the tail (split with cutc false in
net/url). -/
def splitKeep (sep : Char) : List Char → List Char × List Char
  | [] => ([], [])
  | c :: rest =>
    if c = sep then ([], c :: rest)
    else
      let r := splitKeep sep rest
      (c :: r.1, r.2)

/-- Characters allowed after the first one inside a scheme name. -/
def schemeChar (c : Char) : Bool :=
  isAlphaCh c || isDigitCh c || c == '+' || c == '-' || c == '.'

/-- net/url getScheme, scanning after a leading ASCII letter: none encodes
the missing-protocol-scheme error. -/
def getSchemeAux (full : List Char) : List Char → List Char →
    Option (List Char × List Char)
  | [], _ => some ([], full)
  | c :: rest, accRev =>
    if schemeChar c then getSchemeAux full rest (c :: accRev)
    else if c = ':' then some (accRev.reverse, rest)
    else some ([], full)

/-- net/url getScheme. -/
def getSchemeGo (l : List Char) : Option (List Char × List Char) :=
  match l with
  | [] => some ([], [])
  | c :: rest =>
    if isAlphaCh c then getSchemeAux l rest [c]
    else if c = ':' then none
    else some ([], l)

/-- strings.LastIndex with a one-character pattern: the position of the last
occurrence. -/
def lastIndexOfC (c : Char) : List Char → Option Nat
  | [] => none
  | a :: t =>
    match lastIndexOfC c t with
    | some i => some (i + 1)
    | none => if a = c then some 0 else none

/-- net/url validOptionalPort: empty, or a colon followed by decimal digits
only. -/
def validOptionalPort : List Char → Bool
  | [] => true
  | c :: t => c == ':' && t.all isDigitCh

/-- net/url parseHost: a bracketed IPv6 literal with an optional RFC 6874
zone (cut at the first %25 of the bracketed part) and a validated optional
port after the closing bracket, or a plain host with a validated optional
port after the last colon; each part is unescaped in host mode, the zone in
zone mode. -/
def parseHost (host : List Char) : Option (List Char) :=
  if isPrefOf ['['] host then
    match lastIndexOfC ']' host with
    | none => none
    | some i =>
      if !validOptionalPort (host.drop (i + 1)) then none
      else
        match subIdx ("%25".data) (host.take i) with
        | some zone =>
          match unescapeHostL ((host.take i).take zone),
              unescapeZoneL ((host.take i).drop zone),
              unescapeHostL (host.drop i) with
          | some h1, some h2, some h3 => some (h1 ++ h2 ++ h3)
          | _, _, _ => none
        | none => unescapeHostL host
  else
    match lastIndexOfC ':' host with
    | some i =>
      if !validOptionalPort (host.drop i) then none else unescapeHostL host
    | none => unescapeHostL host

/-- net/url parseAuthority: the userinfo is everything before the last at
sign; the host is parsed first, then the userinfo is validated and decoded
(username, and a password after the first colon when one occurs). -/
def parseAuthority (authority : List Char) :
    Option (Option (List Char × Option (List Char)) × List Char) :=
  match lastIndexOfC '@' authority with
  | none =>
    match parseHost authority with
    | none => none
    | some h => some (none, h)
  | some i =>
    match parseHost (authority.drop (i + 1)) with
    | none => none
    | some h =>
      let userinfo := authority.take i
      if !validUserinfo userinfo then none
      else if !userinfo.contains ':' then
        match unescapeL userinfo with
        | none => none
        | some un => some (some (un, none), h)
      else
        let cu := cutChar ':' userinfo
        match unescapeL cu.1, unescapeL cu.2.1 with
        | some un, some pw => some (some (un, some pw), h)
        | _, _ => none

/-- net/url URL.setPath. -/
def setPathGo (raw : List Char) (u : GoURL) : Option GoURL :=
  match unescapeL raw with
  | none => none
  | some p =>
    some { u with path := p,
                  rawPath := if escapeL allowedPath p = raw then [] else raw }

/-- net/url URL.setFragment. -/
def setFragmentGo (raw : List Char) (u : GoURL) : Option GoURL :=
  match unescapeL raw with
  | none => none
  | some f =>
    some { u with fragment := f,
                  rawFragment := if escapeL allowedFrag f = raw then [] else raw }

/-- The query split of net/url parse: a trailing lone question mark forces an
empty query, otherwise cut at the first question mark. -/
def queryCut (rest0 : List Char) : List Char × Bool × List Char :=
  if rest0.getLast? = some '?' && !rest0.dropLast.contains '?' then
    (rest0.dropLast, true, ([] : List Char))
  else
    let r := cutChar '?' rest0
    (r.1, false, r.2.1)

/-- The tail of net/url parse after the control, asterisk and scheme steps. -/
def parseInnerCore (sch rest0 : List Char) : Option GoURL :=
  let qr := queryCut rest0
  let rest := qr.1
  let base :=
    { emptyURL with scheme := sch, forceQuery := qr.2.1, rawQuery := qr.2.2 }
  if !isPrefOf ['/'] rest then
    if sch ≠ [] then some { base with opq := rest }
    else if (rest.takeWhile (· ≠ '/')).contains ':' then none
    else setPathGo rest base
  else
    if isPrefOf ['/', '/'] rest && (sch ≠ [] || !isPrefOf ['/', '/', '/'] rest) then
      let rest2 := rest.drop 2
      let ar := splitKeep '/' rest2
      match parseAuthority ar.1 with
      | none => none
      | some uh => setPathGo ar.2 { base with user := uh.1, host := uh.2 }
    else
      setPathGo rest { base with omitHost := sch ≠ [] }

/-- net/url parse (viaRequest false): everything of Parse except the fragment
split. -/
def parseInner (s : List Char) : Option GoURL :=
  if s.any isCtl then none
  else if s = ['*'] then some { emptyURL with path := ['*'] }
  else
    match getSchemeGo s with
    | none => none
    | some (sch0, rest0) => parseInnerCore (goToLower sch0) rest0

/-- net/url Parse: split the fragment off first, parse the rest, then attach
the fragment when non-empty. -/
def parseURL (s : List Char) : Option GoURL :=
  let fr := cutChar '#' s
  match parseInner fr.1 with
  | none => none
  | some u => if fr.2.1 = [] then some u else setFragmentGo fr.2.1 u

/-- net/url URL.EscapedPath. -/
def escapedPath (u : GoURL) : List Char :=
  if u.rawPath ≠ [] && validEncoded allowedPath u.rawPath &&
      unescapeL u.rawPath = some u.path then
    u.rawPath
  else if u.path = ['*'] then ['*']
  else escapeL allowedPath u.path

/-- net/url URL.EscapedFragment. -/
def escapedFragment (u : GoURL) : List Char :=
  if u.rawFragment ≠ [] && validEncoded allowedFrag u.rawFragment &&
      unescapeL u.rawFragment = some u.fragment then
    u.rawFragment
  else escapeL allowedFrag u.fragment

/-- net/url Userinfo.String: the escaped username and, when a password is
set, a colon and the escaped password. -/
def userString (us : List Char × Option (List Char)) : List Char :=
  escapeL allowedUserPassword us.1 ++
    match us.2 with
    | none => []
    | some pw => ':' :: escapeL allowedUserPassword pw

/-- net/url URL.String. -/
def urlString (u : GoURL) : List Char :=
  let schemePart := if u.scheme ≠ [] then u.scheme ++ [':'] else []
  let base :=
    if u.opq ≠ [] then schemePart ++ u.opq
    else
      let authPart :=
        if u.scheme ≠ [] || u.host ≠ [] || u.user ≠ none then
          if u.omitHost && u.host = [] && u.user = none then []
          else
            (if u.host ≠ [] || u.path ≠ [] || u.user ≠ none then ['/', '/']
             else []) ++
              (match u.user with
               | none => []
               | some us => userString us ++ ['@']) ++
              escapeL allowedHost u.host
        else []
      let p := escapedPath u
      let slashFix :=
        if u.host ≠ [] && p ≠ [] && p.head? ≠ some '/' then ['/'] else []
      let dotFix :=
        if schemePart ++ authPart ++ slashFix = [] &&
            (p.takeWhile (· ≠ '/')).contains ':' then
          ['.', '/']
        else []
      schemePart ++ authPart ++ slashFix ++ dotFix ++ p
  let q := if u.forceQuery || u.rawQuery ≠ [] then '?' :: u.rawQuery else []
  let f := if u.fragment ≠ [] then '#' :: escapedFragment u else []
  base ++ q ++ f

/-- Number of literal ampersands stored in the userinfo component. -/
def userCnt : Option (List Char × Option (List Char)) → Nat
  | none => 0
  | some us =>
    countChar '&' us.1 +
      match us.2 with
      | none => 0
      | some pw => countChar '&' pw

/-- urlEncode of main.go: parse the URL; on failure return the raw string,
otherwise re-serialize it. -/
def urlEncode (s : List Char) : List Char :=
  match parseURL s with
  | none => s
  | some u => urlString u

/-! ## The extractors of main.go -/

/-- One line of extractName, embedding the anchored regex with a hash, one or
more whitespace characters, then a non-empty capture to the end of the line
(applied per split line, so no newline occurs inside).  The returned value is
the submatch text of the capture as the backtracking engine produces it: the
greedy whitespace run backs off by one character when it would otherwise
consume the rest of the line. -/
def lineNameCapture (l : List Char) : Option (List Char) :=
  match l with
  | [] => none
  | c0 :: rest =>
    if c0 = '#' then
      match rest.head? with
      | none => none
      | some c =>
        if regexSpace c then
          let wsLen := (rest.takeWhile regexSpace).length
          if rest.length > wsLen then some (rest.drop wsLen)
          else if 2 ≤ wsLen then some (rest.drop (wsLen - 1))
          else none
        else none
    else none

/-- extractName of main.go: trimmed capture of the first matching line, or
empty. -/
def extractName (md : List Char) : List Char :=
  match (splitOnNl md).findSome? lineNameCapture with
  | some cap => goTrimSpace cap
  | none => []

/-- Attempted match of the extractRole regex starting at one line: the line
must be the label ROLE followed only by regex whitespace, a newline must
follow (the line is not the last), and the captured value is the first
following line holding a non-whitespace character, from that character on.
When every following line is whitespace-only the regex can still match a
lone trailing whitespace character, but that value trims to empty exactly as
the no-match result does, and no later line can start another match, so the
model reports no match there. -/
def roleAttempt (l : List Char) (rest : List (List Char)) : Option (List Char) :=
  if isPrefOf ['R', 'O', 'L', 'E'] l && (l.drop 4).all regexSpace && rest ≠ [] then
    match rest.find? (fun m => !m.all regexSpace) with
    | some j => some (j.dropWhile regexSpace)
    | none => none
  else none

/-- Leftmost-match scan of the extractRole regex over the line starts. -/
def roleFind : List (List Char) → Option (List Char)
  | [] => none
  | l :: rest =>
    match roleAttempt l rest with
    | some v => some v
    | none => roleFind rest

/-- extractRole of main.go. -/
def extractRole (md : List Char) : List Char :=
  match roleFind (splitOnNl md) with
  | some v => goTrimSpace v
  | none => []

/-- Scan for the first occurrence of a stop string with no newline before it
(the lazy dot of the Go regexes never crosses a line): returns the consumed
part and the remainder after the stop string. -/
def scanToStr (stop : List Char) : List Char → Option (List Char × List Char)
  | [] => none
  | c :: rest =>
    if isPrefOf stop (c :: rest) then some ([], (c :: rest).drop stop.length)
    else if c = '\n' then none
    else (scanToStr stop rest).map (fun r => (c :: r.1, r.2))

/-- Attempted match of the image regex (bang, bracketed lazy alt text, then
the parenthesized lazy target capture) at the current position; returns the
capture and the remainder after the match. -/
def attemptImage (l : List Char) : Option (List Char × List Char) :=
  match l with
  | '!' :: '[' :: rest =>
    match scanToStr [']', '('] rest with
    | none => none
    | some ar =>
      match scanToStr [')'] ar.2 with
      | none => none
      | some ur => some (ur.1, ur.2)
  | _ => none

/-- All capture groups of the image regex over the document in order, as
FindAllStringSubmatch produces them.  The fuel starts at the input length;
every successful match consumes at least one character, so it never runs
out. -/
def imageCapturesAux : Nat → List Char → List (List Char)
  | 0, _ => []
  | fuel + 1, l =>
    match l with
    | [] => []
    | c :: rest =>
      match attemptImage (c :: rest) with
      | some ur => ur.1 :: imageCapturesAux fuel ur.2
      | none => imageCapturesAux fuel rest

def imageCaptures (l : List Char) : List (List Char) := imageCapturesAux l.length l

/-- The trimmed, non-empty raw image targets in document order, before
deduplication (the loop body of extractImages before the seen check). -/
def rawCaptures (md : List Char) : List (List Char) :=
  ((imageCaptures md).map goTrimSpace).filter (· ≠ [])

/-- First-occurrence deduplication with an explicit seen set, as the
extractImages loop performs it. -/
def dedupFirstAux : List (List Char) → List (List Char) → List (List Char)
  | [], _ => []
  | r :: rest, seen =>
    if seen.contains r then dedupFirstAux rest seen
    else r :: dedupFirstAux rest (r :: seen)

/-- The deduplicated raw image targets of a document in first-occurrence
order. -/
def dedupRaws (md : List Char) : List (List Char) := dedupFirstAux (rawCaptures md) []

/-- extractImages of main.go: normalize each deduplicated raw target. -/
def extractImages (md : List Char) : List (List Char) := (dedupRaws md).map urlEncode

/-! ### cleanDescription -/

/-- Attempted match of the markdown link regex: bracketed non-empty text
without a closing bracket inside, then a parenthesized non-empty target. -/
def attemptLink (l : List Char) : Option (List Char × List Char) :=
  match l with
  | '[' :: rest =>
    let txt := rest.takeWhile (· ≠ ']')
    if txt = [] then none
    else
      match rest.drop txt.length with
      | ']' :: '(' :: r2 =>
        let tgt := r2.takeWhile (· ≠ ')')
        if tgt = [] then none
        else
          match r2.drop tgt.length with
          | ')' :: after => some (txt, after)
          | _ => none
      | _ => none
  | _ => none

/-- Global replacement of markdown links by their label text
(ReplaceAllString with the capture), fueled by the input length. -/
def replaceLinksAux : Nat → List Char → List Char
  | 0, l => l
  | fuel + 1, l =>
    match l with
    | [] => []
    | c :: rest =>
      match attemptLink (c :: rest) with
      | some ta => ta.1 ++ replaceLinksAux fuel ta.2
      | none => c :: replaceLinksAux fuel rest

/-- Global removal of markdown images (ReplaceAllString with the empty
string). -/
def removeImagesAux : Nat → List Char → List Char
  | 0, l => l
  | fuel + 1, l =>
    match l with
    | [] => []
    | c :: rest =>
      match attemptImage (c :: rest) with
      | some ur => removeImagesAux fuel ur.2
      | none => c :: removeImagesAux fuel rest

/-- Replacement of every maximal run of regex whitespace by one space. -/
def collapseWSAux : Bool → List Char → List Char
  | _, [] => []
  | prevWs, c :: rest =>
    if regexSpace c then
      if prevWs then collapseWSAux true rest
      else ' ' :: collapseWSAux true rest
    else c :: collapseWSAux false rest

def collapseWS (l : List Char) : List Char := collapseWSAux false l

/-- The footer phrase fragments of cleanDescription, in source order. -/
def footerFragments : List (List Char) :=
  (["Download Riot Mobile Companion App",
    "Twitter", "YouTube", "Instagram", "TikTok", "Facebook", "Discord",
    "Riot Games",
    "© 2020-2025 Riot Games",
    "Privacy Notice",
    "Terms of Service",
    "ESRB",
    "Blood", "Language", "Violence", "Users Interact", "In-Game Purchases",
    "Check Session IFrame",
    "OIDC OP Iframe",
    "Auth Error"] : List String).map String.data

/-- One footer truncation step of cleanDescription: cut before the first
occurrence of the fragment, but only when that occurrence starts after
position zero. -/
def truncStep (d : List Char) (p : List Char) : List Char :=
  match subIdx p d with
  | some k => if 0 < k then d.take k else d
  | none => d

/-- cleanDescription of main.go. -/
def cleanDescription (d : List Char) : List Char :=
  let d1 := replaceLinksAux d.length d
  let d2 := removeImagesAux d1.length d1
  let d3 := collapseWS d2
  let d4 := goTrimSpace d3
  let d5 := footerFragments.foldl truncStep d4
  goTrimSpace d5

/-! ### parseAbilities -/

def abilitiesHeading : List Char := "## SPECIAL ABILITIES".data

/-- The three boilerplate start markers of parseAbilities, each beginning
with a newline. -/
def footerPatterns3 : List (List Char) :=
  (["\n- [Download Riot Mobile Companion App]",
    "\n[Riot Games]",
    "\n© 2020-2025"] : List String).map String.data

/-- The section window of parseAbilities: from the first occurrence of the
heading to the earliest following footer marker (or the end). -/
def boundedSection (md : List Char) : Option (List Char) :=
  match subIdx abilitiesHeading md with
  | none => none
  | some i =>
    let sec := md.drop i
    let fs := footerPatterns3.foldl
      (fun fs p =>
        match subIdx p sec with
        | some idx => if idx < fs then idx else fs
        | none => fs)
      sec.length
    some (sec.take fs)

/-- Attempted match of the numbered-image regex (line-anchored digits, a
period, optional whitespace which may span line breaks at section level,
then an image): returns ordinal digits, the capture, and the remainder. -/
def matchNumbered (l : List Char) : Option (List Char × List Char × List Char) :=
  let ds := l.takeWhile isDigitCh
  if ds = [] then none
  else
    match l.drop ds.length with
    | '.' :: r2 =>
      match r2.dropWhile regexSpace with
      | '!' :: '[' :: r4 =>
        match scanToStr [']', '('] r4 with
        | none => none
        | some ar =>
          match scanToStr [')'] ar.2 with
          | none => none
          | some ur => some (ds, ur.1, ur.2)
      | _ => none
    | _ => none

/-- Decimal value of a digit run.  Go reads it with Sscanf into an int; the
model uses unbounded naturals, which agrees for every ordinal below 2^63. -/
def digitsToNat (ds : List Char) : Nat := ds.foldl (fun n c => 10 * n + (c.toNat - 48)) 0

/-- FindAllStringSubmatch of the numbered-image regex over the section,
attempting the line-anchored match at each line start and resuming after
each match. -/
def findNumberedAux : Nat → Bool → List Char → List (Nat × List Char)
  | 0, _, _ => []
  | fuel + 1, atStart, l =>
    match l with
    | [] => []
    | c :: rest =>
      if atStart then
        match matchNumbered (c :: rest) with
        | some m => (digitsToNat m.1, m.2.1) :: findNumberedAux fuel false m.2.2
        | none => findNumberedAux fuel (c = '\n') rest
      else findNumberedAux fuel (c = '\n') rest

/-- Insertion with overwrite, modeling assignment into the Go ordinal map
(the list length is the map size). -/
def insertOrd : List (Nat × List Char) → Nat → List Char → List (Nat × List Char)
  | [], n, v => [(n, v)]
  | (k, w) :: rest, n, v =>
    if k = n then (k, v) :: rest else (k, w) :: insertOrd rest n v

/-- The ordinal map of parseAbilities for a section. -/
def buildImageMap (sec : List Char) : List (Nat × List Char) :=
  (findNumberedAux sec.length true sec).foldl (fun m p => insertOrd m p.1 p.2) []

/-- Go map read with the zero value for a missing key. -/
def lookupOrd (m : List (Nat × List Char)) (n : Nat) : List Char :=
  ((m.find? (fun p => p.1 == n)).map Prod.snd).getD []

/-- Index just after the last line matching the numbered-image regex. -/
def numberedEndAux : Nat → List (List Char) → Nat → Nat
  | _, [], acc => acc
  | i, l :: rest, acc =>
    numberedEndAux (i + 1) rest (if (matchNumbered l).isSome then i + 1 else acc)

def numberedEnd (lines : List (List Char)) : Nat := numberedEndAux 0 lines 0

/-- isAllCaps test of the walk: upper-casing the line leaves it unchanged. -/
def isAllCaps (l : List Char) : Bool := goToUpper l == l && !l.isEmpty

/-- The first-byte upper-case test of isTitleCase.  Go compares the one-byte
slice with its ToUpper image; for a line starting with a multi-byte rune the
slice is an invalid sequence whose ToUpper image differs, so the test is
false there. -/
def upperFirstEq : List Char → Bool
  | [] => false
  | c :: _ => if c.val < 0x80 then toUpperChar c == c else false

/-- isTitleCase test of the walk (lengths are Go byte lengths). -/
def isTitleCase (l : List Char) : Bool :=
  !l.isEmpty && upperFirstEq l &&
  (byteLen l == 1 || goToLower (l.drop 1) == l.drop 1 ||
    (countChar ' ' l ≤ 3 && allWordsTitleCase l))

/-- The stop list of known non-ability tokens, in source order. -/
def skipWords : List (List Char) :=
  (["ROLE", "SPECIAL", "ABILITIES", "BLOOD", "LANGUAGE", "VIOLENCE", "USERS",
    "INTERACT", "PURCHASES", "Download", "Twitter", "YouTube", "Instagram",
    "TikTok", "Facebook", "Discord", "Riot", "Games", "Privacy", "Notice",
    "Terms", "Service", "ESRB", "Check", "Session", "IFrame", "OIDC", "OP",
    "Auth", "Error"] : List String).map String.data

/-- The skip-word rejection of the walk: the upper-cased line equals the
upper-cased form of a stop-list entry. -/
def isSkipWord (l : List Char) : Bool := skipWords.any fun w => goToUpper l == goToUpper w

/-- The shape conditions a candidate name line must meet besides the image
flag and the stop list. -/
def nameCond (l : List Char) : Bool :=
  3 < byteLen l && byteLen l < 50 && (isAllCaps l || isTitleCase l) &&
  countChar ' ' l ≤ 3

/-- The stop test of description accumulation: a line that itself looks like
the next ability name, or one holding a footer phrase. -/
def descStop (nl : List Char) : Bool :=
  (!nl.isEmpty && !isPrefOf ['!'] nl && !isPrefOf ['-'] nl && !isPrefOf ['['] nl &&
    3 < byteLen nl && byteLen nl < 50 && (isAllCaps nl || isTitleCase nl)) ||
  containsSub nl "Download Riot".data || containsSub nl "Riot Games".data ||
  containsSub nl "© 2020".data

/-- Description accumulation from the lines after a candidate name. -/
def collectDesc : List (List Char) → List (List Char)
  | [] => []
  | l :: rest =>
    let nl := goTrimSpace l
    if descStop nl then []
    else if !nl.isEmpty && !isPrefOf ['!'] nl then nl :: collectDesc rest
    else collectDesc rest

/-- One ability record of the output. -/
structure Ability where
  name : List Char
  description : List Char
  image : List Char
deriving DecidableEq, Repr

/-- The classification walk of parseAbilities over the lines after the
numbered images, carrying the seen-large-image flag and the ability index. -/
def abilitiesWalk (imap : List (Nat × List Char)) :
    List (List Char) → Bool → Nat → List Ability
  | [], _, _ => []
  | l :: rest, seen, idx =>
    if 4 ≤ idx then []
    else
      let line := goTrimSpace l
      if line.isEmpty || isPrefOf ['!'] line then
        abilitiesWalk imap rest (seen || isPrefOf ['!'] line) idx
      else if seen && nameCond line && !isSkipWord line then
        { name := line,
          description := cleanDescription (List.intercalate [' '] (collectDesc rest)),
          image := if idx + 1 ≤ imap.length then urlEncode (lookupOrd imap (idx + 1)) else [] } ::
          abilitiesWalk imap rest seen (idx + 1)
      else abilitiesWalk imap rest seen idx

/-- The ordinal map a document produces (empty when the section is absent). -/
def ordinalMap (md : List Char) : List (Nat × List Char) :=
  match boundedSection md with
  | none => []
  | some sec => buildImageMap sec

/-- parseAbilities of main.go. -/
def parseAbilities (md : List Char) : List Ability :=
  match boundedSection md with
  | none => []
  | some sec =>
    let imap := buildImageMap sec
    let lines := splitOnNl sec
    abilitiesWalk imap (lines.drop (numberedEnd lines)) false 0

/-- The extracted record for one document. -/
structure Agent where
  name : List Char
  role : List Char
  abilities : List Ability
  media : List (List Char)
  markdown : List Char
deriving DecidableEq, Repr

/-- parseMarkdown of main.go, the extraction entry point. -/
def parseMarkdown (md : List Char) : Agent :=
  { name := extractName md, role := extractRole md, abilities := parseAbilities md,
    media := extractImages md, markdown := md }

/-! ## Specification-side definitions used for comparison

The following definitions restate the label-then-value pattern in the words
of the specification, for the refinement comparison with extractRole. -/

/-- The trimmed value line: the first following line holding a
non-whitespace character, trimmed; empty when none exists. -/
def roleValueAfter : List (List Char) → List Char
  | [] => []
  | j :: rest => if j.all regexSpace then roleValueAfter rest else goTrimSpace j

/-- Generic first-label-then-value search over the lines. -/
def roleSpecFind (label : List Char → Bool) : List (List Char) → List Char
  | [] => []
  | l :: rest => if label l then roleValueAfter rest else roleSpecFind label rest

/-- Label line as the claim words it: the token ROLE optionally surrounded by
whitespace on both sides. -/
def roleClaimLabel (l : List Char) : Bool :=
  let t := l.dropWhile regexSpace
  isPrefOf ['R', 'O', 'L', 'E'] t && (t.drop 4).all regexSpace

/-- The role extractor as the claim describes it (written from the claim, for
comparison with the code). -/
def roleSpecClaim (md : List Char) : List Char :=
  roleSpecFind roleClaimLabel (splitOnNl md)

/-- Label line as the code anchors it: ROLE at the start of the line followed
only by trailing whitespace. -/
def roleAnchoredLabel (l : List Char) : Bool :=
  isPrefOf ['R', 'O', 'L', 'E'] l && (l.drop 4).all regexSpace

/-- The amended role extractor characterization: leading whitespace before
the label is not permitted. -/
def roleSpecAmended (md : List Char) : List Char :=
  roleSpecFind roleAnchoredLabel (splitOnNl md)

/-! ## Concrete documents used in the theorems -/

/-- The end-to-end scenario document of the specification. -/
def jettDoc : List Char :=
  ("# Jett\nROLE\n\nDuelist\n\n## SPECIAL ABILITIES\n1. ![a](http://x/1.png)\nCLOUDBURST\nThrows a cloud.\n© 2020-2025 Riot Games").data

/-- A document whose only numbered image carries ordinal 2, so that the
ordinal map has size one but no entry for key 1. -/
def gapDoc : List Char :=
  ("## SPECIAL ABILITIES\n2. ![a](http://u)\n![b](x)\nALPHA ONE\nsome words here\nBETA TWO\nmore words").data

/-- The section window of the scenario document, used as a witness value. -/
def secJett : List Char :=
  ("## SPECIAL ABILITIES\n1. ![a](http://x/1.png)\nCLOUDBURST\nThrows a cloud.").data

/-- A document without the abilities heading, used as a witness value. -/
def noHeadDoc : List Char := ("# Sage\nROLE\n\nSentinel\n").data

/-- First index satisfying a predicate (used to phrase the walk equations). -/
def firstIdxP (p : α → Bool) : List α → Option Nat
  | [] => none
  | a :: l => if p a then some 0 else (firstIdxP p l).map (· + 1)

/-! ## Theorems -/

theorem abilitiesWalk_of_le4 (imap : List (Nat × List Char))
    (lines : List (List Char)) (seen : Bool) (idx : Nat) (h : 4 ≤ idx) :
    abilitiesWalk imap lines seen idx = [] := by
  cases lines with
  | nil => rfl
  | cons l rest => simp [abilitiesWalk, h]

/-- C1, counterexample: on the exact scenario document the extraction entry
point returns no sub-records at all (the classification walk never sees a
standalone image line after the numbered block, so its licensing flag stays
false), refuting the claimed record with one CLOUDBURST sub-item. -/
theorem c1_counterexample :
    ¬ ((parseMarkdown jettDoc).name = "Jett".data ∧
       (parseMarkdown jettDoc).role = "Duelist".data ∧
       (parseMarkdown jettDoc).media = ["http://x/1.png".data] ∧
       (parseMarkdown jettDoc).abilities =
         [⟨"CLOUDBURST".data, "Throws a cloud.".data, "http://x/1.png".data⟩]) := by
  decide

/-- C1, amended: on the scenario document the extraction entry point returns
name Jett, role Duelist, media with the single normalized URL, and an empty
sub-record list. -/
theorem c1_scenario :
    parseMarkdown jettDoc =
      { name := "Jett".data, role := "Duelist".data, abilities := [],
        media := ["http://x/1.png".data], markdown := jettDoc } := by
  decide

/-- C2, counterexample: on a document whose only numbered image has ordinal
2, the sub-record at slot 1 gets an empty image although the ordinal map
holds key 2 with a target normalizing to a non-empty URL; the code compares
the slot against the map size, not key presence. -/
theorem c2_counterexample :
    ¬ (∀ (md : List Char) (s : Nat) (a : Ability), (parseAbilities md)[s]? = some a →
        a.image =
          match (ordinalMap md).find? (fun q => q.1 == s + 1) with
          | some q => urlEncode q.2
          | none => []) := by
  intro h
  have h3 := h gapDoc 1 ⟨"BETA TWO".data, "more words".data, []⟩ (by decide)
  revert h3
  decide

/-- C4, counterexample: a description beginning with a footer fragment is
left unchanged because the truncation step only fires at a positive offset,
so the cleaned description still holds the fragment. -/
theorem c4_counterexample :
    "Twitter".data ∈ footerFragments ∧
    containsSub (cleanDescription "Twitter abc".data) "Twitter".data = true := by
  decide

/-- C7, counterexample: the non-empty trimmed target of the only image of
this document is a lone hash, whose canonical serialization is the empty
string, so the media list stores an empty string for a non-empty raw
source. -/
theorem c7_counterexample :
    ¬ ((∀ s, parseURL s = none → urlEncode s = s) ∧
       (∀ (md v : List Char), v ∈ extractImages md → v ≠ [])) := by
  intro h
  exact h.2 "![a](#)".data [] (by decide) rfl

/-- C10: the seen-large-image flag is monotone.  A walk started with the
flag clear emits nothing when no line starts with an image marker, and
otherwise equals the walk resumed just after the first image line with the
flag set for the whole remainder; moreover an image line never resets a set
flag: under a set flag it is simply skipped. -/
theorem c10_seen_flag :
    ∀ (imap : List (Nat × List Char)) (lines : List (List Char)) (slot : Nat),
      (abilitiesWalk imap lines false slot =
        match firstIdxP (fun l => isPrefOf ['!'] (goTrimSpace l)) lines with
        | none => []
        | some k => abilitiesWalk imap (lines.drop (k + 1)) true slot) ∧
      (∀ l, isPrefOf ['!'] (goTrimSpace l) = true →
        abilitiesWalk imap (l :: lines) true slot = abilitiesWalk imap lines true slot) := by
  intro imap lines slot
  constructor
  · induction lines generalizing slot with
    | nil => rfl
    | cons l rest ih =>
      by_cases h4 : 4 ≤ slot
      · rw [abilitiesWalk_of_le4 imap _ _ _ h4]
        cases hf : firstIdxP (fun l => isPrefOf ['!'] (goTrimSpace l)) (l :: rest) with
        | none => rfl
        | some k => exact (abilitiesWalk_of_le4 imap _ _ _ h4).symm
      · by_cases himg : isPrefOf ['!'] (goTrimSpace l) = true
        · simp [abilitiesWalk, if_neg h4, himg, firstIdxP]
        · have himg2 : isPrefOf ['!'] (goTrimSpace l) = false :=
            Bool.not_eq_true _ ▸ eq_false_of_ne_true himg
          by_cases hemp : (goTrimSpace l).isEmpty = true
          · simp only [abilitiesWalk, if_neg h4, hemp, himg2, Bool.true_or,
              Bool.or_false, if_true, firstIdxP]
            rw [ih slot]
            cases hf : firstIdxP (fun l => isPrefOf ['!'] (goTrimSpace l)) rest <;>
              simp [hf, himg2]
          · have hemp2 : (goTrimSpace l).isEmpty = false :=
              Bool.not_eq_true _ ▸ eq_false_of_ne_true hemp
            simp only [abilitiesWalk, if_neg h4, hemp2, himg2, Bool.false_or,
              Bool.or_false, Bool.false_and, Bool.false_eq_true, if_false, firstIdxP]
            rw [ih slot]
            cases hf : firstIdxP (fun l => isPrefOf ['!'] (goTrimSpace l)) rest <;>
              simp [hf, himg2]
  · intro l hl
    by_cases h4 : 4 ≤ slot
    · rw [abilitiesWalk_of_le4 imap _ _ _ h4, abilitiesWalk_of_le4 imap _ _ _ h4]
    · have : (goTrimSpace l).isEmpty = true ∨ True := Or.inr trivial
      simp [abilitiesWalk, if_neg h4, hl]

theorem mem_dedupFirstAux (r : List Char) :
    ∀ (l seen : List (List Char)),
      r ∈ dedupFirstAux l seen ↔ r ∈ l ∧ r ∉ seen := by
  intro l
  induction l with
  | nil => intro seen; simp [dedupFirstAux]
  | cons a rest ih =>
    intro seen
    by_cases ha : a ∈ seen
    · have hc : seen.contains a = true := by simpa using ha
      rw [dedupFirstAux, if_pos hc, ih seen]
      constructor
      · rintro ⟨h1, h2⟩; exact ⟨List.mem_cons_of_mem _ h1, h2⟩
      · rintro ⟨h1, h2⟩
        rcases List.mem_cons.mp h1 with h | h
        · exact absurd (h ▸ ha) h2
        · exact ⟨h, h2⟩
    · have hc : ¬ seen.contains a = true := by simpa using ha
      rw [dedupFirstAux, if_neg hc]
      simp only [List.mem_cons, ih (a :: seen)]
      constructor
      · rintro (h | ⟨h1, h2⟩)
        · exact ⟨Or.inl h, h ▸ ha⟩
        · exact ⟨Or.inr h1, fun hs => h2 (Or.inr hs)⟩
      · rintro ⟨h1, h2⟩
        rcases h1 with h | h
        · exact Or.inl h
        · by_cases hra : r = a
          · exact Or.inl hra
          · exact Or.inr ⟨h, by simp [List.mem_cons, hra, h2]⟩

theorem nodup_dedupFirstAux :
    ∀ (l seen : List (List Char)), (dedupFirstAux l seen).Nodup := by
  intro l
  induction l with
  | nil => intro seen; simp [dedupFirstAux]
  | cons a rest ih =>
    intro seen
    by_cases ha : a ∈ seen
    · have hc : seen.contains a = true := by simpa using ha
      rw [dedupFirstAux, if_pos hc]
      exact ih seen
    · have hc : ¬ seen.contains a = true := by simpa using ha
      rw [dedupFirstAux, if_neg hc, List.nodup_cons]
      refine ⟨fun hmem => ?_, ih (a :: seen)⟩
      exact ((mem_dedupFirstAux a rest (a :: seen)).mp hmem).2 (List.mem_cons_self a seen)

theorem sublist_dedupFirstAux :
    ∀ (l seen : List (List Char)), List.Sublist (dedupFirstAux l seen) l := by
  intro l
  induction l with
  | nil => intro seen; simp [dedupFirstAux]
  | cons a rest ih =>
    intro seen
    by_cases ha : a ∈ seen
    · have hc : seen.contains a = true := by simpa using ha
      rw [dedupFirstAux, if_pos hc]
      exact List.Sublist.cons a (ih seen)
    · have hc : ¬ seen.contains a = true := by simpa using ha
      rw [dedupFirstAux, if_neg hc]
      exact List.Sublist.cons₂ a (ih (a :: seen))

/-- C8: the media list is the normalization image of the deduplicated raw
list; deduplication is by raw pre-normalization string with the first
occurrence winning and document order kept (the deduplicated list has no
duplicate and is an order-preserving sublist of the occurrence list holding
exactly the occurring raw strings), so two distinct raw strings both stay
even when they normalize identically. -/
theorem c8_media_dedup (md : List Char) :
    extractImages md = (dedupRaws md).map urlEncode ∧
    (dedupRaws md).Nodup ∧
    List.Sublist (dedupRaws md) (rawCaptures md) ∧
    (∀ r, r ∈ rawCaptures md ↔ r ∈ dedupRaws md) ∧
    (∀ r₁ r₂, r₁ ∈ rawCaptures md → r₂ ∈ rawCaptures md → r₁ ≠ r₂ →
      r₁ ∈ dedupRaws md ∧ r₂ ∈ dedupRaws md) := by
  have hmem : ∀ r, r ∈ rawCaptures md ↔ r ∈ dedupRaws md := by
    intro r
    rw [dedupRaws, mem_dedupFirstAux]
    simp
  refine ⟨rfl, nodup_dedupFirstAux _ _, sublist_dedupFirstAux _ _, hmem, ?_⟩
  intro r₁ r₂ h1 h2 _
  exact ⟨(hmem r₁).mp h1, (hmem r₂).mp h2⟩

/-- C9, counterexample: a label line with leading whitespace matches the
pattern as the claim words it, but the code regex anchors the label at the
line start, so the extractor returns the empty string instead of the value
line. -/
theorem c9_counterexample : ¬ (∀ md, extractRole md = roleSpecClaim md) := by
  intro h
  have h1 := h " ROLE\nDuelist".data
  revert h1
  decide

theorem abilitiesWalk_image (imap : List (Nat × List Char)) :
    ∀ (lines : List (List Char)) (seen : Bool) (idx s : Nat) (a : Ability),
      (abilitiesWalk imap lines seen idx)[s]? = some a →
      a.image = if idx + s + 1 ≤ imap.length then
          urlEncode (lookupOrd imap (idx + s + 1)) else [] := by
  intro lines
  induction lines with
  | nil => intro seen idx s a ha; simp [abilitiesWalk] at ha
  | cons l rest ih =>
    intro seen idx s a ha
    by_cases h4 : 4 ≤ idx
    · rw [abilitiesWalk_of_le4 imap _ _ _ h4] at ha
      simp at ha
    · rw [abilitiesWalk, if_neg h4] at ha
      by_cases hskip : ((goTrimSpace l).isEmpty || isPrefOf ['!'] (goTrimSpace l)) = true
      · rw [if_pos hskip] at ha
        exact ih _ _ _ a ha
      · rw [if_neg hskip] at ha
        by_cases hemit : (seen && nameCond (goTrimSpace l) && !isSkipWord (goTrimSpace l)) = true
        · rw [if_pos hemit] at ha
          cases s with
          | zero =>
            simp only [List.getElem?_cons_zero, Option.some_inj] at ha
            subst ha
            simp
          | succ s2 =>
            simp only [List.getElem?_cons_succ] at ha
            have := ih _ _ s2 a ha
            have harith : idx + 1 + s2 + 1 = idx + (s2 + 1) + 1 := by omega
            rw [harith] at this
            exact this
        · rw [if_neg hemit] at ha
          exact ih _ _ _ a ha

/-- C2, amended: the image of the emitted sub-record at slot s is the
normalization of the ordinal map value for key s plus one (the empty string
standing in for a missing key) whenever s plus one is at most the map size,
and the empty string otherwise. -/
theorem c2_amended (md : List Char) (s : Nat) (a : Ability)
    (h : (parseAbilities md)[s]? = some a) :
    a.image = if s + 1 ≤ (ordinalMap md).length then
        urlEncode (lookupOrd (ordinalMap md) (s + 1)) else [] := by
  rw [parseAbilities] at h
  cases hb : boundedSection md with
  | none => rw [hb] at h; simp at h
  | some sec =>
    rw [hb] at h
    have himg := abilitiesWalk_image _ _ _ _ _ _ h
    rw [ordinalMap, hb]
    simpa using himg

/-- C2 witness: the amended image rule instantiated on the concrete gap
document at slot 0. -/
theorem c2_amended_witness :
    (parseAbilities gapDoc)[0]? =
        some ⟨"ALPHA ONE".data, "some words here".data, []⟩ ∧
    (⟨"ALPHA ONE".data, "some words here".data, ([] : List Char)⟩ : Ability).image =
      if 0 + 1 ≤ (ordinalMap gapDoc).length then
        urlEncode (lookupOrd (ordinalMap gapDoc) (0 + 1)) else [] :=
  ⟨by decide, c2_amended gapDoc 0 _ (by decide)⟩

theorem dropWhile_dropWhile_of_imp {P Q : Char → Bool}
    (h : ∀ c, Q c = true → P c = true) :
    ∀ l : List Char, (l.dropWhile Q).dropWhile P = l.dropWhile P := by
  intro l
  induction l with
  | nil => rfl
  | cons c rest ih =>
    by_cases hq : Q c = true
    · rw [List.dropWhile_cons_of_pos hq, ih, List.dropWhile_cons_of_pos (h c hq)]
    · rw [List.dropWhile_cons_of_neg (by simpa using hq)]

theorem regexSpace_imp_goIsSpace (c : Char) (hc : regexSpace c = true) :
    goIsSpace c = true := by
  rw [regexSpace] at hc
  simp only [Bool.or_eq_true, beq_iff_eq] at hc
  rcases hc with ((((h | h) | h) | h) | h) <;> subst h <;> decide

theorem goTrimSpace_dropWhile_regexSpace (j : List Char) :
    goTrimSpace (j.dropWhile regexSpace) = goTrimSpace j := by
  rw [goTrimSpace, goTrimSpace, dropWhile_dropWhile_of_imp regexSpace_imp_goIsSpace j]

theorem roleValueAfter_some (rest : List (List Char)) (j : List Char)
    (h : rest.find? (fun m => !m.all regexSpace) = some j) :
    roleValueAfter rest = goTrimSpace j := by
  induction rest with
  | nil => simp at h
  | cons a tail ih =>
    by_cases ha : (!a.all regexSpace) = true
    · simp only [List.find?_cons, ha, Option.some_inj] at h
      subst h
      rw [roleValueAfter, if_neg (by simpa using ha)]
    · have ha2 : (!a.all regexSpace) = false := by simpa using ha
      simp only [List.find?_cons, ha2] at h
      rw [roleValueAfter, if_pos (by simpa using ha)]
      exact ih h

theorem roleValueAfter_none (rest : List (List Char))
    (h : rest.find? (fun m => !m.all regexSpace) = none) :
    roleValueAfter rest = [] := by
  induction rest with
  | nil => rfl
  | cons a tail ih =>
    by_cases ha : (!a.all regexSpace) = true
    · simp only [List.find?_cons, ha] at h
      exact Option.noConfusion h
    · have ha2 : (!a.all regexSpace) = false := by simpa using ha
      simp only [List.find?_cons, ha2] at h
      rw [roleValueAfter, if_pos (by simpa using ha)]
      exact ih h

theorem rolePref_false_of_allws (l : List Char) (h : l.all regexSpace = true) :
    isPrefOf ['R', 'O', 'L', 'E'] l = false := by
  cases l with
  | nil => rfl
  | cons c rest =>
    rw [List.all_cons, Bool.and_eq_true] at h
    rw [isPrefOf]
    have : ('R' == c) = false := by
      by_cases hc : c = 'R'
      · subst hc; simp [regexSpace] at h
      · simpa using fun hh => hc hh.symm
    simp [this]

theorem roleFind_none_of_allws (lines : List (List Char))
    (h : ∀ l ∈ lines, l.all regexSpace = true) : roleFind lines = none := by
  induction lines with
  | nil => rfl
  | cons l rest ih =>
    rw [roleFind, roleAttempt,
      if_neg (by simp [rolePref_false_of_allws l (h l (List.mem_cons_self l rest))])]
    exact ih fun x hx => h x (List.mem_cons_of_mem l hx)

/-- C9, amended: the role extractor equals the label-then-value search whose
label line is ROLE anchored at the line start followed only by trailing
whitespace, the value being the trimmed first following line with a
non-whitespace character (empty when none). -/
theorem c9_amended (md : List Char) : extractRole md = roleSpecAmended md := by
  rw [extractRole, roleSpecAmended]
  generalize splitOnNl md = lines
  induction lines with
  | nil => rfl
  | cons l rest ih =>
    rw [roleFind, roleSpecFind]
    by_cases hlab : roleAnchoredLabel l = true
    · rw [if_pos hlab]
      rw [roleAnchoredLabel, Bool.and_eq_true] at hlab
      cases hrest : rest with
      | nil =>
        rw [roleAttempt, if_neg (by simp [hlab.1, hlab.2])]
        rfl
      | cons r0 rtail =>
        rw [← hrest]
        rw [roleAttempt, if_pos (by simp [hlab.1, hlab.2, hrest])]
        cases hf : rest.find? (fun m => !m.all regexSpace) with
        | some j =>
          rw [roleValueAfter_some rest j hf]
          exact goTrimSpace_dropWhile_regexSpace j
        | none =>
          have hall : ∀ x ∈ rest, x.all regexSpace = true := by
            intro x hx
            have := List.find?_eq_none.mp hf x hx
            simpa using this
          rw [roleFind_none_of_allws rest hall, roleValueAfter_none rest hf]
    · rw [if_neg hlab]
      rw [roleAnchoredLabel] at hlab
      rw [roleAttempt, if_neg (by
        intro hc
        rw [Bool.and_eq_true, Bool.and_eq_true] at hc
        exact hlab (by rw [Bool.and_eq_true]; exact ⟨hc.1.1, hc.1.2⟩))]
      exact ih

theorem isPrefOf_iff (p : List Char) :
    ∀ s, isPrefOf p s = true ↔ ∃ t, s = p ++ t := by
  induction p with
  | nil => intro s; simp [isPrefOf]
  | cons c ps ih =>
    intro s
    cases s with
    | nil =>
      simp only [isPrefOf, List.cons_append]
      constructor
      · intro h; exact absurd h (by simp)
      · rintro ⟨t, ht⟩; exact absurd ht (by simp)
    | cons d ss =>
      rw [isPrefOf, Bool.and_eq_true, beq_iff_eq, ih ss]
      constructor
      · rintro ⟨hcd, t, ht⟩
        exact ⟨t, by rw [List.cons_append, ← hcd, ← ht]⟩
      · rintro ⟨t, ht⟩
        rw [List.cons_append] at ht
        cases ht
        exact ⟨rfl, t, rfl⟩

theorem subIdx_some (pat : List Char) :
    ∀ (s : List Char) (k : Nat), subIdx pat s = some k →
      isPrefOf pat (s.drop k) = true ∧ ∀ j, j < k → isPrefOf pat (s.drop j) = false := by
  intro s
  induction s with
  | nil =>
    intro k h
    rw [subIdx] at h
    by_cases hp : isPrefOf pat [] = true
    · rw [if_pos hp] at h
      cases h
      exact ⟨hp, fun j hj => absurd hj (Nat.not_lt_zero j)⟩
    · rw [if_neg hp] at h
      exact Option.noConfusion h
  | cons c rest ih =>
    intro k h
    rw [subIdx] at h
    by_cases hp : isPrefOf pat (c :: rest) = true
    · rw [if_pos hp] at h
      cases h
      exact ⟨hp, fun j hj => absurd hj (Nat.not_lt_zero j)⟩
    · rw [if_neg hp] at h
      rcases Option.map_eq_some'.mp h with ⟨k2, hk2, rfl⟩
      rcases ih k2 hk2 with ⟨h1, h2⟩
      refine ⟨by simpa using h1, fun j hj => ?_⟩
      cases j with
      | zero => simpa using Bool.not_eq_true _ ▸ eq_false_of_ne_true hp
      | succ j2 =>
        simp only [List.drop_succ_cons]
        exact h2 j2 (by omega)

theorem subIdx_none (pat : List Char) :
    ∀ (s : List Char), subIdx pat s = none →
      ∀ j, isPrefOf pat (s.drop j) = false := by
  intro s
  induction s with
  | nil =>
    intro h j
    rw [subIdx] at h
    by_cases hp : isPrefOf pat [] = true
    · rw [if_pos hp] at h; exact Option.noConfusion h
    · simpa using Bool.not_eq_true _ ▸ eq_false_of_ne_true hp
  | cons c rest ih =>
    intro h j
    rw [subIdx] at h
    by_cases hp : isPrefOf pat (c :: rest) = true
    · rw [if_pos hp] at h; exact Option.noConfusion h
    · rw [if_neg hp] at h
      have hr : subIdx pat rest = none := by
        cases hx : subIdx pat rest with
        | none => rfl
        | some v => rw [hx] at h; exact Option.noConfusion h
      cases j with
      | zero => simpa using Bool.not_eq_true _ ▸ eq_false_of_ne_true hp
      | succ j2 => simpa using ih hr j2

theorem containsSub_iff (s pat : List Char) :
    containsSub s pat = true ↔ ∃ k, isPrefOf pat (s.drop k) = true := by
  rw [containsSub]
  constructor
  · intro h
    cases hx : subIdx pat s with
    | none => rw [hx] at h; simp at h
    | some k => exact ⟨k, (subIdx_some pat s k hx).1⟩
  · rintro ⟨k, hk⟩
    cases hx : subIdx pat s with
    | none => exact absurd hk (by simp [subIdx_none pat s hx k])
    | some v => simp

theorem isPrefOf_take (p x : List Char) (m : Nat) (h : isPrefOf p x = true)
    (hm : p.length ≤ m) : isPrefOf p (x.take m) = true := by
  rcases (isPrefOf_iff p x).mp h with ⟨t, rfl⟩
  rw [isPrefOf_iff]
  refine ⟨t.take (m - p.length), ?_⟩
  rw [List.take_append_eq_append_take]
  congr 1
  exact List.take_of_length_le hm

theorem isPrefOf_of_take (p x : List Char) (m : Nat)
    (h : isPrefOf p (x.take m) = true) :
    isPrefOf p x = true ∧ p.length ≤ m := by
  rcases (isPrefOf_iff p (x.take m)).mp h with ⟨t, ht⟩
  have hlen : p.length ≤ m := by
    have := congrArg List.length ht
    simp only [List.length_take, List.length_append] at this
    omega
  refine ⟨(isPrefOf_iff p x).mpr ⟨t ++ x.drop m, ?_⟩, hlen⟩
  conv_lhs => rw [← List.take_append_drop m x]
  rw [ht, List.append_assoc]

theorem footerFold_le (sec : List Char) :
    ∀ (pats : List (List Char)) (init : Nat),
      pats.foldl (fun fs p =>
        match subIdx p sec with
        | some idx => if idx < fs then idx else fs
        | none => fs) init ≤ init := by
  intro pats
  induction pats with
  | nil => intro init; exact Nat.le_refl init
  | cons q rest ih =>
    intro init
    rw [List.foldl_cons]
    refine Nat.le_trans (ih _) ?_
    cases hq : subIdx q sec with
    | none => exact Nat.le_refl init
    | some idx =>
      by_cases hlt : idx < init
      · simp only [hlt, if_true]
        omega
      · simp only [hlt, if_false]
        exact Nat.le_refl init

theorem footerFold_le_occ (sec : List Char) :
    ∀ (pats : List (List Char)) (init : Nat) (p : List Char) (j : Nat),
      p ∈ pats → subIdx p sec = some j →
      pats.foldl (fun fs p =>
        match subIdx p sec with
        | some idx => if idx < fs then idx else fs
        | none => fs) init ≤ j := by
  intro pats
  induction pats with
  | nil => intro init p j hp; exact absurd hp (List.not_mem_nil p)
  | cons q rest ih =>
    intro init p j hp hj
    rw [List.foldl_cons]
    rcases List.mem_cons.mp hp with rfl | hmem
    · rw [hj]
      refine Nat.le_trans (footerFold_le sec rest _) ?_
      by_cases hlt : j < init
      · simp [hlt]
      · simp [hlt]; omega
    · exact ih _ p j hmem hj

theorem footerFold_cases (sec : List Char) :
    ∀ (pats : List (List Char)) (init : Nat),
      (pats.foldl (fun fs p =>
        match subIdx p sec with
        | some idx => if idx < fs then idx else fs
        | none => fs) init = init) ∨
      ∃ p ∈ pats, subIdx p sec =
        some (pats.foldl (fun fs p =>
          match subIdx p sec with
          | some idx => if idx < fs then idx else fs
          | none => fs) init) := by
  intro pats
  induction pats with
  | nil => intro init; exact Or.inl rfl
  | cons q rest ih =>
    intro init
    rw [List.foldl_cons]
    rcases ih (match subIdx q sec with
      | some idx => if idx < init then idx else init
      | none => init) with heq | ⟨p, hp, hocc⟩
    · rw [heq]
      cases hq : subIdx q sec with
      | none => simp
      | some idx =>
        by_cases hlt : idx < init
        · refine Or.inr ⟨q, List.mem_cons_self q rest, ?_⟩
          rw [hq]
          simp [hq, hlt]
        · simp [hq, hlt]
    · exact Or.inr ⟨p, List.mem_cons_of_mem q hp, hocc⟩

theorem no_footer_at_heading (t p : List Char) (hp : p ∈ footerPatterns3)
    (k : Nat) (hk : k < abilitiesHeading.length) :
    isPrefOf p ((abilitiesHeading ++ t).drop k) = false := by
  have hd : (abilitiesHeading ++ t).drop k = abilitiesHeading.drop k ++ t :=
    List.drop_append_of_le_length (Nat.le_of_lt hk)
  have hne : abilitiesHeading.drop k ≠ [] := by
    simp only [ne_eq, List.drop_eq_nil_iff]
    omega
  obtain ⟨c, cs, hc⟩ := List.exists_cons_of_ne_nil hne
  have hcval : abilitiesHeading[k]? = some c := by
    rw [← List.head?_drop, hc]
    rfl
  have hcnl : c ≠ '\n' := by
    have hall : ∀ j, j < abilitiesHeading.length → abilitiesHeading[j]? ≠ some '\n' := by
      decide
    intro hceq
    exact hall k hk (hceq ▸ hcval)
  have hphead : p.head? = some '\n' := by
    have : ∀ q ∈ footerPatterns3, q.head? = some '\n' := by decide
    exact this p hp
  obtain ⟨p2, hp2⟩ : ∃ p2, p = '\n' :: p2 := by
    cases p with
    | nil => exact Option.noConfusion hphead
    | cons a as => exact ⟨as, by cases hphead; rfl⟩
  rw [hd, hc, hp2, List.cons_append, isPrefOf]
  simp only [Bool.and_eq_false_iff]
  left
  simpa using fun h => hcnl h.symm

/-- C3: when the heading is absent the sub-record list is empty; when it is
present the section window starts at its first occurrence, excludes every
boilerplate marker, is a prefix of the document tail there, and is maximal:
a shorter window than the tail means a marker starts exactly at its end. -/
theorem c3_section_bounds (md : List Char) :
    (subIdx abilitiesHeading md = none → parseAbilities md = []) ∧
    (∀ sec, boundedSection md = some sec →
      ∃ i, subIdx abilitiesHeading md = some i ∧
        isPrefOf abilitiesHeading sec = true ∧
        isPrefOf sec (md.drop i) = true ∧
        (∀ p ∈ footerPatterns3, containsSub sec p = false) ∧
        (sec.length < (md.drop i).length →
          ∃ p ∈ footerPatterns3, isPrefOf p ((md.drop i).drop sec.length) = true)) := by
  constructor
  · intro h
    rw [parseAbilities, boundedSection, h]
  · intro sec hsec
    rw [boundedSection] at hsec
    cases hi : subIdx abilitiesHeading md with
    | none => rw [hi] at hsec; exact Option.noConfusion hsec
    | some i =>
      rw [hi] at hsec
      refine ⟨i, rfl, ?_⟩
      simp only [Option.some_inj] at hsec
      have hpref0 : isPrefOf abilitiesHeading (md.drop i) = true :=
        (subIdx_some abilitiesHeading md i hi).1
      obtain ⟨t, ht⟩ := (isPrefOf_iff abilitiesHeading (md.drop i)).mp hpref0
      have hlen0 : abilitiesHeading.length ≤ (md.drop i).length := by
        rw [ht, List.length_append]
        omega
      have hFle : (footerPatterns3.foldl (fun fs p =>
          match subIdx p (md.drop i) with
          | some idx => if idx < fs then idx else fs
          | none => fs) (md.drop i).length) ≤ (md.drop i).length :=
        footerFold_le (md.drop i) footerPatterns3 (md.drop i).length
      set F := footerPatterns3.foldl (fun fs p =>
          match subIdx p (md.drop i) with
          | some idx => if idx < fs then idx else fs
          | none => fs) (md.drop i).length with hFdef
      have hF20 : abilitiesHeading.length ≤ F := by
        by_contra hlt
        push_neg at hlt
        have hFne : F ≠ (md.drop i).length := by omega
        rcases footerFold_cases (md.drop i) footerPatterns3 (md.drop i).length with
          heq | ⟨p, hp, hocc⟩
        · exact hFne (by rw [hFdef]; exact heq)
        · have := (subIdx_some p (md.drop i) F hocc).1
          rw [ht] at this
          rw [no_footer_at_heading t p hp F hlt] at this
          exact Bool.noConfusion this
      have hsec_take : sec = (md.drop i).take F := by rw [← hsec]
      have hseclen : sec.length = F := by
        rw [hsec_take, List.length_take]
        omega
      refine ⟨?_, ?_, ?_, ?_⟩
      · rw [hsec_take]
        exact isPrefOf_take _ _ _ hpref0 hF20
      · rw [hsec_take, isPrefOf_iff]
        exact ⟨(md.drop i).drop F, (List.take_append_drop F (md.drop i)).symm⟩
      · intro p hp
        by_contra hcc
        have hcc2 : containsSub sec p = true := by
          cases hx : containsSub sec p with
          | false => exact absurd hx hcc
          | true => rfl
        rcases (containsSub_iff sec p).mp hcc2 with ⟨k, hk⟩
        rw [hsec_take, List.drop_take] at hk
        rcases isPrefOf_of_take p ((md.drop i).drop k) (F - k) hk with ⟨hpk, hplen⟩
        have hpne : 1 ≤ p.length := by
          have : ∀ q ∈ footerPatterns3, 1 ≤ q.length := by decide
          exact this p hp
        have hkF : k < F := by omega
        cases hocc : subIdx p (md.drop i) with
        | none =>
          rw [subIdx_none p (md.drop i) hocc k] at hpk
          exact Bool.noConfusion hpk
        | some j =>
          have hFj : F ≤ j := footerFold_le_occ (md.drop i) footerPatterns3 _ p j hp hocc
          have hmin := (subIdx_some p (md.drop i) j hocc).2
          by_cases hkj : k < j
          · rw [hmin k hkj] at hpk
            exact Bool.noConfusion hpk
          · omega
      · intro hshort
        rw [hseclen] at hshort
        have hFne : F ≠ (md.drop i).length := by omega
        rcases footerFold_cases (md.drop i) footerPatterns3 (md.drop i).length with
          heq | ⟨p, hp, hocc⟩
        · exact absurd (by rw [hFdef]; exact heq) hFne
        · rw [hseclen]
          exact ⟨p, hp, (subIdx_some p (md.drop i) F hocc).1⟩

/-- C3 witness: both halves instantiated, the empty half on a document
without the heading and the window half on the scenario document. -/
theorem c3_section_bounds_witness :
    parseAbilities noHeadDoc = [] ∧
    (∃ i, subIdx abilitiesHeading jettDoc = some i ∧
      isPrefOf abilitiesHeading secJett = true ∧
      isPrefOf secJett (jettDoc.drop i) = true ∧
      (∀ p ∈ footerPatterns3, containsSub secJett p = false) ∧
      (secJett.length < (jettDoc.drop i).length →
        ∃ p ∈ footerPatterns3, isPrefOf p ((jettDoc.drop i).drop secJett.length) = true)) :=
  ⟨(c3_section_bounds noHeadDoc).1 (by decide),
   (c3_section_bounds jettDoc).2 secJett (by decide)⟩

theorem truncStep_none (d p : List Char) (h : subIdx p d = none) :
    truncStep d p = d := by
  rw [truncStep, h]

theorem truncStep_some (d p : List Char) (k : Nat) (h : subIdx p d = some k) :
    truncStep d p = if 0 < k then d.take k else d := by
  rw [truncStep, h]

theorem truncStep_establishes (d p : List Char)
    (hc : containsSub (truncStep d p) p = true) :
    isPrefOf p (truncStep d p) = true := by
  by_cases hpe : p = []
  · subst hpe; rfl
  · cases hx : subIdx p d with
    | none =>
      rw [truncStep_none d p hx] at hc ⊢
      rw [containsSub, hx] at hc
      exact absurd hc (by simp)
    | some k =>
      rw [truncStep_some d p k hx] at hc ⊢
      by_cases hk : 0 < k
      · rw [if_pos hk] at hc ⊢
        rcases (containsSub_iff _ _).mp hc with ⟨j, hj⟩
        rw [List.drop_take] at hj
        rcases isPrefOf_of_take p (d.drop j) (k - j) hj with ⟨hpj, hplen⟩
        have hpne : 1 ≤ p.length := by
          cases p with
          | nil => exact absurd rfl hpe
          | cons a as => simp
        have hjk : j < k := by omega
        rw [(subIdx_some p d k hx).2 j hjk] at hpj
        exact Bool.noConfusion hpj
      · rw [if_neg hk] at hc ⊢
        have hk0 : k = 0 := by omega
        subst hk0
        simpa using (subIdx_some p d 0 hx).1

theorem truncStep_preserves (d p q : List Char)
    (h : containsSub d p = true → isPrefOf p d = true)
    (hc : containsSub (truncStep d q) p = true) :
    isPrefOf p (truncStep d q) = true := by
  cases hx : subIdx q d with
  | none => rw [truncStep_none d q hx] at hc ⊢; exact h hc
  | some k =>
    rw [truncStep_some d q k hx] at hc ⊢
    by_cases hk : 0 < k
    · rw [if_pos hk] at hc ⊢
      rcases (containsSub_iff _ _).mp hc with ⟨j, hj⟩
      rw [List.drop_take] at hj
      rcases isPrefOf_of_take p (d.drop j) (k - j) hj with ⟨hpj, hplen⟩
      have hcd : containsSub d p = true := (containsSub_iff _ _).mpr ⟨j, hpj⟩
      exact isPrefOf_take p d k (h hcd) (by omega)
    · rw [if_neg hk] at hc ⊢; exact h hc

theorem footerFold_inv (p : List Char) :
    ∀ (pats : List (List Char)) (d : List Char),
      (containsSub d p = true → isPrefOf p d = true) →
      containsSub (pats.foldl truncStep d) p = true →
      isPrefOf p (pats.foldl truncStep d) = true := by
  intro pats
  induction pats with
  | nil => intro d h hc; exact h hc
  | cons q rest ih =>
    intro d h hc
    rw [List.foldl_cons] at hc ⊢
    exact ih (truncStep d q) (truncStep_preserves d p q h) hc

theorem footerFold_establishes (p : List Char) (pats : List (List Char))
    (hp : p ∈ pats) (d : List Char)
    (hc : containsSub (pats.foldl truncStep d) p = true) :
    isPrefOf p (pats.foldl truncStep d) = true := by
  rcases List.append_of_mem hp with ⟨l1, l2, rfl⟩
  rw [List.foldl_append, List.foldl_cons] at hc ⊢
  exact footerFold_inv p l2 _ (truncStep_establishes _ p) hc

theorem containsSub_of_take (s p : List Char) (m : Nat)
    (hc : containsSub (s.take m) p = true) :
    containsSub s p = true ∧ p.length ≤ m := by
  rcases (containsSub_iff _ _).mp hc with ⟨k, hk⟩
  rw [List.drop_take] at hk
  rcases isPrefOf_of_take p (s.drop k) (m - k) hk with ⟨hpk, hplen⟩
  exact ⟨(containsSub_iff _ _).mpr ⟨k, hpk⟩, by omega⟩

theorem containsSub_of_dropWhile (P : Char → Bool) (s p : List Char)
    (hc : containsSub (s.dropWhile P) p = true) : containsSub s p = true := by
  rcases (containsSub_iff _ _).mp hc with ⟨k, hk⟩
  have h2 : containsSub (s.takeWhile P ++ s.dropWhile P) p = true :=
    (containsSub_iff _ _).mpr ⟨(s.takeWhile P).length + k,
      by rw [List.drop_append]; exact hk⟩
  rw [List.takeWhile_append_dropWhile] at h2
  exact h2

theorem goTrimSpace_as_take (l : List Char) :
    ∃ m, goTrimSpace l = (l.dropWhile goIsSpace).take m := by
  rw [goTrimSpace]
  set Y := l.dropWhile goIsSpace with hYdef
  set D := Y.reverse.dropWhile goIsSpace with hDdef
  rcases List.dropWhile_suffix (l := Y.reverse) goIsSpace with ⟨t, ht⟩
  have hy : Y = D.reverse ++ t.reverse := by
    have h2 := congrArg List.reverse ht
    rw [List.reverse_append, List.reverse_reverse] at h2
    exact h2.symm
  refine ⟨D.reverse.length, ?_⟩
  rw [hy, List.take_left]

/-- C4, amended: each footer fragment truncates the cleaned description at
its first occurrence only when that occurrence is at a positive offset, so a
cleaned description may still contain a footer fragment, but then only as a
prefix: every fragment occurrence in the final description starts at offset
zero. -/
theorem c4_footer_prefix (d p : List Char) (hp : p ∈ footerFragments)
    (hc : containsSub (cleanDescription d) p = true) :
    isPrefOf p (cleanDescription d) = true := by
  rw [cleanDescription] at hc ⊢
  set X := footerFragments.foldl truncStep
    (goTrimSpace (collapseWS (removeImagesAux (replaceLinksAux d.length d).length
      (replaceLinksAux d.length d)))) with hXdef
  rcases goTrimSpace_as_take X with ⟨m, hm⟩
  rw [hm] at hc ⊢
  rcases containsSub_of_take _ p m hc with ⟨hcd, hplen⟩
  have hcX : containsSub X p = true := containsSub_of_dropWhile goIsSpace X p hcd
  have hprefX : isPrefOf p X = true := footerFold_establishes p footerFragments hp _ hcX
  have hphead : p ≠ [] ∧ goIsSpace (p.headD 'x') = false := by
    have : ∀ q ∈ footerFragments, q ≠ [] ∧ goIsSpace (q.headD 'x') = false := by decide
    exact this p hp
  obtain ⟨c, p2, rfl⟩ : ∃ c p2, p = c :: p2 := by
    cases p with
    | nil => exact absurd rfl hphead.1
    | cons a as => exact ⟨a, as, rfl⟩
  obtain ⟨t, htX⟩ := (isPrefOf_iff _ X).mp hprefX
  have hXdrop : X.dropWhile goIsSpace = X := by
    rw [htX, List.cons_append]
    exact List.dropWhile_cons_of_neg (by simpa using hphead.2)
  rw [hXdrop]
  exact isPrefOf_take _ X m hprefX hplen

/-- C4 witness: the amended rule instantiated on the concrete description
that starts with a footer fragment. -/
theorem c4_footer_prefix_witness :
    isPrefOf "Twitter".data (cleanDescription "Twitter abc".data) = true :=
  c4_footer_prefix "Twitter abc".data "Twitter".data (by decide) (by decide)

/-- C7, amended: normalization of an unparseable target returns the raw
string unchanged, and every media value is the normalization of some
non-empty raw target (nothing is dropped), though that normalization can be
empty for exotic targets. -/
theorem c7_amended :
    (∀ s, parseURL s = none → urlEncode s = s) ∧
    (∀ (md v : List Char), v ∈ extractImages md →
      ∃ raw, raw ≠ [] ∧ v = urlEncode raw) := by
  constructor
  · intro s h
    rw [urlEncode, h]
  · intro md v hv
    rw [extractImages] at hv
    rcases List.mem_map.mp hv with ⟨raw, hraw, rfl⟩
    refine ⟨raw, ?_, rfl⟩
    have hmem := ((mem_dedupFirstAux raw (rawCaptures md) []).mp hraw).1
    rw [rawCaptures] at hmem
    have := (List.mem_filter.mp hmem).2
    simpa using this

/-- C7 witness: the amended rule applied to a concrete unparseable target
and to the media entry of the scenario document. -/
theorem c7_amended_witness :
    urlEncode "%".data = "%".data ∧
    (∃ raw, raw ≠ [] ∧ "http://x/1.png".data = urlEncode raw) :=
  ⟨c7_amended.1 "%".data (by decide),
   c7_amended.2 jettDoc "http://x/1.png".data (by decide)⟩

/-- C8 witness: the membership equivalence of the dedup theorem at the media
entry of the scenario document. -/
theorem c8_media_dedup_witness :
    "http://x/1.png".data ∈ rawCaptures jettDoc ↔
      "http://x/1.png".data ∈ dedupRaws jettDoc :=
  (c8_media_dedup jettDoc).2.2.2.1 "http://x/1.png".data

/-- C10 witness: the flag equations applied to concrete line lists. -/
theorem c10_seen_flag_witness :
    (abilitiesWalk [] ["![x](y)".data, "NAME HERE".data] false 0 =
      match firstIdxP (fun l => isPrefOf ['!'] (goTrimSpace l))
          ["![x](y)".data, "NAME HERE".data] with
      | none => []
      | some k =>
        abilitiesWalk [] (["![x](y)".data, "NAME HERE".data].drop (k + 1)) true 0) ∧
    abilitiesWalk [] ("![z](w)".data :: ["TEST NAME".data]) true 0 =
      abilitiesWalk [] ["TEST NAME".data] true 0 :=
  ⟨(c10_seen_flag [] ["![x](y)".data, "NAME HERE".data] 0).1,
   (c10_seen_flag [] ["TEST NAME".data] 0).2 "![z](w)".data (by decide)⟩

theorem char_toNat_inj {a b : Char} (h : a.toNat = b.toNat) : a = b := by
  apply Char.ext
  apply UInt32.ext
  exact h

theorem char_le_iff {a b : Char} : a ≤ b ↔ a.toNat ≤ b.toNat := by
  rw [Char.le_def, UInt32.le_def, BitVec.le_def]
  exact Iff.rfl

theorem toNat_ofNat_valid (n : Nat) (h : n < 0xd800) : (Char.ofNat n).toNat = n := by
  have hv : n.isValidChar := Or.inl h
  rw [Char.ofNat, dif_pos hv]
  simp [Char.ofNatAux, Char.toNat, UInt32.toNat, BitVec.toNat_ofNat]

theorem toUpperChar_toNat (c : Char) :
    (toUpperChar c).toNat =
      if 97 ≤ c.toNat ∧ c.toNat ≤ 122 then c.toNat - 32 else c.toNat := by
  rw [toUpperChar]
  by_cases h : 97 ≤ c.toNat ∧ c.toNat ≤ 122
  · rw [if_pos (by simp [char_le_iff]; omega), if_pos h]
    exact toNat_ofNat_valid _ (by omega)
  · rw [if_neg ?_, if_neg h]
    simp only [Bool.and_eq_true, decide_eq_true_eq, char_le_iff, not_and]
    intro h1 h2
    exact h ⟨h1, h2⟩

theorem toUpperChar_idem (c : Char) : toUpperChar (toUpperChar c) = toUpperChar c := by
  apply char_toNat_inj
  simp only [toUpperChar_toNat]
  split_ifs <;> omega

theorem goToUpper_idem (l : List Char) : goToUpper (goToUpper l) = goToUpper l := by
  simp only [goToUpper, List.map_map]
  exact List.map_congr_left fun c _ => toUpperChar_idem c

theorem mem_abilitiesWalk_skip (imap : List (Nat × List Char)) :
    ∀ (lines : List (List Char)) (seen : Bool) (idx : Nat) (a : Ability),
      a ∈ abilitiesWalk imap lines seen idx → isSkipWord a.name = false := by
  intro lines
  induction lines with
  | nil => intro seen idx a ha; simp [abilitiesWalk] at ha
  | cons l rest ih =>
    intro seen idx a ha
    by_cases h4 : 4 ≤ idx
    · rw [abilitiesWalk_of_le4 imap _ _ _ h4] at ha
      simp at ha
    · rw [abilitiesWalk] at ha
      rw [if_neg h4] at ha
      by_cases hskip : ((goTrimSpace l).isEmpty || isPrefOf ['!'] (goTrimSpace l)) = true
      · rw [if_pos hskip] at ha
        exact ih _ _ a ha
      · rw [if_neg hskip] at ha
        by_cases hemit : (seen && nameCond (goTrimSpace l) && !isSkipWord (goTrimSpace l)) = true
        · rw [if_pos hemit] at ha
          rcases List.mem_cons.mp ha with h | h
          · have : (!isSkipWord (goTrimSpace l)) = true := by
              have := hemit
              simp only [Bool.and_eq_true] at this
              exact this.2
            subst h
            simpa using this
          · exact ih _ _ a h
        · rw [if_neg hemit] at ha
          exact ih _ _ a ha

/-- C5: no emitted sub-record name has an upper-cased form equal to a
stop-list entry; in particular a line reading exactly ROLE is never emitted
as a sub-record name.  The walk compares the upper-cased line against the
upper-cased entries, which covers equality with the entry itself because
upper-casing is idempotent. -/
theorem c5_stop_list (md : List Char) (a : Ability) (ha : a ∈ parseAbilities md)
    (w : List Char) (hw : w ∈ skipWords) : goToUpper a.name ≠ w := by
  have hskip : isSkipWord a.name = false := by
    rw [parseAbilities] at ha
    cases hb : boundedSection md with
    | none => rw [hb] at ha; simp at ha
    | some sec =>
      rw [hb] at ha
      exact mem_abilitiesWalk_skip _ _ _ _ a ha
  intro heq
  have hall : ∀ x ∈ skipWords, (goToUpper a.name == goToUpper x) = false := by
    intro x hx
    have := hskip
    rw [isSkipWord] at this
    rw [List.any_eq_false] at this
    simpa using this x hx
  have h1 := hall w hw
  rw [← heq, goToUpper_idem] at h1
  simp at h1

/-- C5 witness: the stop-list rule applied to the first emitted ability of
the gap document against the entry ROLE. -/
theorem c5_stop_list_witness :
    (⟨"ALPHA ONE".data, "some words here".data, ([] : List Char)⟩ : Ability) ∈
        parseAbilities gapDoc ∧
    "ROLE".data ∈ skipWords ∧
    goToUpper "ALPHA ONE".data ≠ "ROLE".data :=
  ⟨by decide, by decide,
   c5_stop_list gapDoc ⟨"ALPHA ONE".data, "some words here".data, []⟩ (by decide)
     "ROLE".data (by decide)⟩

theorem contains_iff_mem (l : List Char) (c : Char) : l.contains c = true ↔ c ∈ l := by
  simp [List.elem_iff]

theorem contains_false_iff (l : List Char) (c : Char) :
    l.contains c = false ↔ c ∉ l := by
  constructor
  · intro h hc
    rw [(contains_iff_mem l c).mpr hc] at h
    exact Bool.noConfusion h
  · intro h
    cases hx : l.contains c with
    | false => rfl
    | true => exact absurd ((contains_iff_mem l c).mp hx) h

theorem cutChar_not_mem (c : Char) :
    ∀ l : List Char, l.contains c = false → cutChar c l = (l, [], false) := by
  intro l
  induction l with
  | nil => intro h; rfl
  | cons a rest ih =>
    intro h
    have hac : a ≠ c := by
      intro hac
      subst hac
      exact ((contains_false_iff _ _).mp h) (List.mem_cons_self a rest)
    have hr : rest.contains c = false := by
      rw [contains_false_iff] at h ⊢
      exact fun hc => h (List.mem_cons_of_mem a hc)
    rw [cutChar, if_neg hac, ih hr]

theorem cutChar_append_sep (c : Char) :
    ∀ (a b : List Char), a.contains c = false →
      cutChar c (a ++ c :: b) = (a, b, true) := by
  intro a
  induction a with
  | nil => intro b h; rw [List.nil_append, cutChar, if_pos rfl]
  | cons x rest ih =>
    intro b h
    have hxc : x ≠ c := by
      intro hx
      subst hx
      exact ((contains_false_iff _ _).mp h) (List.mem_cons_self x rest)
    have hr : rest.contains c = false := by
      rw [contains_false_iff] at h ⊢
      exact fun hc => h (List.mem_cons_of_mem x hc)
    rw [List.cons_append, cutChar, if_neg hxc, ih b hr]

theorem splitKeep_not_mem (c : Char) :
    ∀ l : List Char, l.contains c = false → splitKeep c l = (l, []) := by
  intro l
  induction l with
  | nil => intro h; rfl
  | cons a rest ih =>
    intro h
    have hac : a ≠ c := by
      intro hac
      subst hac
      exact ((contains_false_iff _ _).mp h) (List.mem_cons_self a rest)
    have hr : rest.contains c = false := by
      rw [contains_false_iff] at h ⊢
      exact fun hc => h (List.mem_cons_of_mem a hc)
    rw [splitKeep, if_neg hac, ih hr]

theorem splitKeep_append_head (c : Char) :
    ∀ (a b : List Char), a.contains c = false → b.head? = some c →
      splitKeep c (a ++ b) = (a, b) := by
  intro a
  induction a with
  | nil =>
    intro b h hb
    cases b with
    | nil => exact Option.noConfusion hb
    | cons x bs =>
      cases hb
      rw [List.nil_append, splitKeep, if_pos rfl]
  | cons x rest ih =>
    intro b h hb
    have hxc : x ≠ c := by
      intro hx
      subst hx
      exact ((contains_false_iff _ _).mp h) (List.mem_cons_self x rest)
    have hr : rest.contains c = false := by
      rw [contains_false_iff] at h ⊢
      exact fun hc => h (List.mem_cons_of_mem x hc)
    rw [List.cons_append, splitKeep, if_neg hxc, ih b hr hb]

theorem getSchemeAux_scheme (full : List Char) :
    ∀ (xs R acc : List Char), xs.all schemeChar = true →
      getSchemeAux full (xs ++ ':' :: R) acc = some (acc.reverse ++ xs, R) := by
  intro xs
  induction xs with
  | nil =>
    intro R acc _
    rw [List.nil_append, getSchemeAux, if_neg (by decide), if_pos rfl,
      List.append_nil]
  | cons x rest ih =>
    intro R acc hall
    rw [List.all_cons, Bool.and_eq_true] at hall
    rw [List.cons_append, getSchemeAux, if_pos hall.1, ih R (x :: acc) hall.2]
    simp

theorem getSchemeGo_scheme (sch R : List Char)
    (h1 : sch.all schemeChar = true)
    (h2 : ∀ c, sch.head? = some c → isAlphaCh c = true)
    (h3 : sch ≠ []) :
    getSchemeGo (sch ++ ':' :: R) = some (sch, R) := by
  cases sch with
  | nil => exact absurd rfl h3
  | cons c cs =>
    rw [List.all_cons, Bool.and_eq_true] at h1
    rw [List.cons_append, getSchemeGo, if_pos (h2 c rfl),
      getSchemeAux_scheme (c :: (cs ++ ':' :: R)) cs R [c] h1.2]
    simp

theorem getSchemeAux_no_colon (full : List Char) :
    ∀ (l acc : List Char),
      (l.dropWhile schemeChar).head? ≠ some ':' →
      getSchemeAux full l acc = some ([], full) := by
  intro l
  induction l with
  | nil => intro acc _; rfl
  | cons x rest ih =>
    intro acc h
    by_cases hx : schemeChar x = true
    · rw [List.dropWhile_cons_of_pos hx] at h
      rw [getSchemeAux, if_pos hx]
      exact ih (x :: acc) h
    · rw [List.dropWhile_cons_of_neg (by simpa using hx)] at h
      have hxc : x ≠ ':' := by
        intro hxeq
        exact h (by rw [hxeq]; rfl)
      rw [getSchemeAux, if_neg (by simpa using hx), if_neg hxc]

theorem getSchemeGo_no_colon (l : List Char)
    (h0 : l.head? ≠ some ':')
    (h : (l.dropWhile schemeChar).head? ≠ some ':') :
    getSchemeGo l = some ([], l) := by
  cases l with
  | nil => rfl
  | cons c cs =>
    by_cases hc : isAlphaCh c = true
    · rw [getSchemeGo, if_pos hc]
      have hcs : schemeChar c = true := by
        rw [schemeChar, hc]
        rfl
      rw [List.dropWhile_cons_of_pos hcs] at h
      exact getSchemeAux_no_colon _ cs [c] h
    · have hcc : c ≠ ':' := fun he => h0 (by rw [he]; rfl)
      rw [getSchemeGo, if_neg (by simpa using hc), if_neg hcc]

theorem escapeL_eq_nil_iff (allowed : Char → Bool) (x : List Char) :
    escapeL allowed x = [] ↔ x = [] := by
  cases x with
  | nil => simp [escapeL]
  | cons c t =>
    rw [escapeL]
    by_cases h : allowed c = true
    · rw [if_pos h]; simp
    · rw [if_neg h]; simp

theorem escapeL_all_allowed (allowed : Char → Bool) :
    ∀ x : List Char, x.all allowed = true → escapeL allowed x = x := by
  intro x
  induction x with
  | nil => intro _; rfl
  | cons c t ih =>
    intro h
    rw [List.all_cons, Bool.and_eq_true] at h
    rw [escapeL, if_pos h.1, ih h.2]

theorem isAlnumCh_upperHexDigit (n : Nat) (h : n < 16) :
    isAlnumCh (upperHexDigit n) = true := by
  rw [upperHexDigit]
  by_cases h10 : n < 10
  · rw [if_pos h10]
    have ht : (Char.ofNat (48 + n)).toNat = 48 + n := toNat_ofNat_valid _ (by omega)
    rw [isAlnumCh, isDigitCh]
    have e0 : ('0' : Char).toNat = 48 := rfl
    have e9 : ('9' : Char).toNat = 57 := rfl
    have h1 : ('0' ≤ Char.ofNat (48 + n)) := by rw [char_le_iff, ht, e0]; omega
    have h2 : (Char.ofNat (48 + n) ≤ '9') := by rw [char_le_iff, ht, e9]; omega
    simp [h1, h2]
  · rw [if_neg h10]
    have ht : (Char.ofNat (55 + n)).toNat = 55 + n := toNat_ofNat_valid _ (by omega)
    rw [isAlnumCh, isAlphaCh]
    have eA : ('A' : Char).toNat = 65 := rfl
    have eZ : ('Z' : Char).toNat = 90 := rfl
    have h1 : ('A' ≤ Char.ofNat (55 + n)) := by rw [char_le_iff, ht, eA]; omega
    have h2 : (Char.ofNat (55 + n) ≤ 'Z') := by rw [char_le_iff, ht, eZ]; omega
    simp [h1, h2]

theorem le_val_iff (c : Char) : (0x80 ≤ c.val) ↔ 128 ≤ c.toNat := by
  rw [UInt32.le_def, BitVec.le_def]
  exact Iff.rfl

theorem allowedPath_high (c : Char) (h : 0x80 ≤ c.val) : allowedPath c = true := by
  rw [allowedPath]
  simp [h]

theorem allowedFrag_high (c : Char) (h : 0x80 ≤ c.val) : allowedFrag c = true := by
  rw [allowedFrag]
  simp [h]

theorem allowedHost_high (c : Char) (h : 0x80 ≤ c.val) : allowedHost c = true := by
  rw [allowedHost]
  simp [h]

theorem toNat_lt_of_not_allowedPath (c : Char) (h : allowedPath c = false) :
    c.toNat < 128 := by
  by_contra hge
  push_neg at hge
  rw [allowedPath_high c ((le_val_iff c).mpr hge)] at h
  exact Bool.noConfusion h

theorem mem_escapeL (allowed : Char → Bool)
    (hhi : ∀ c : Char, allowed c = false → c.toNat < 128) :
    ∀ (x : List Char) (c : Char), c ∈ escapeL allowed x →
      allowed c = true ∨ c = '%' ∨ isAlnumCh c = true := by
  intro x
  induction x with
  | nil => intro c hc; simp [escapeL] at hc
  | cons a t ih =>
    intro c hc
    rw [escapeL] at hc
    by_cases ha : allowed a = true
    · rw [if_pos ha] at hc
      rcases List.mem_cons.mp hc with rfl | hc2
      · exact Or.inl ha
      · exact ih c hc2
    · rw [if_neg ha] at hc
      rcases List.mem_cons.mp hc with rfl | hc2
      · exact Or.inr (Or.inl rfl)
      · have halt : a.toNat < 128 := hhi a (Bool.not_eq_true _ ▸ eq_false_of_ne_true ha)
        rcases List.mem_cons.mp hc2 with rfl | hc3
        · exact Or.inr (Or.inr (isAlnumCh_upperHexDigit _ (by omega)))
        · rcases List.mem_cons.mp hc3 with rfl | hc4
          · exact Or.inr (Or.inr (isAlnumCh_upperHexDigit _ (by
              have := Nat.mod_lt a.toNat (show 0 < 16 by omega)
              omega)))
          · exact ih c hc4

theorem percent_mem_escapeL (allowed : Char → Bool) :
    ∀ x : List Char, escapeL allowed x ≠ x →
      (escapeL allowed x).contains '%' = true := by
  intro x
  induction x with
  | nil => intro h; exact absurd rfl h
  | cons a t ih =>
    intro h
    rw [escapeL] at h ⊢
    by_cases ha : allowed a = true
    · rw [if_pos ha] at h ⊢
      have ht : escapeL allowed t ≠ t := fun he => h (by rw [he])
      rw [contains_iff_mem]
      exact List.mem_cons_of_mem a ((contains_iff_mem _ _).mp (ih ht))
    · rw [if_neg ha]
      rw [contains_iff_mem]
      exact List.mem_cons_self _ _

theorem toNat_upperHexDigit (n : Nat) (h : n < 16) :
    (upperHexDigit n).toNat = if n < 10 then 48 + n else 55 + n := by
  rw [upperHexDigit]
  by_cases h10 : n < 10
  · rw [if_pos h10, if_pos h10]
    exact toNat_ofNat_valid _ (by omega)
  · rw [if_neg h10, if_neg h10]
    exact toNat_ofNat_valid _ (by omega)

theorem upperHexDigit_ne (n : Nat) (h : n < 16) (c : Char)
    (hc : c.toNat < 48 ∨ (57 < c.toNat ∧ c.toNat < 65) ∨ 70 < c.toNat) :
    upperHexDigit n ≠ c := by
  intro he
  have := toNat_upperHexDigit n h
  rw [he] at this
  by_cases h10 : n < 10 <;> simp [h10] at this <;> omega

theorem colon_mem_escapeL_of (allowed : Char → Bool)
    (hhi : ∀ c : Char, allowed c = false → c.toNat < 128) :
    ∀ x : List Char, ':' ∈ escapeL allowed x → ':' ∈ x := by
  intro x
  induction x with
  | nil => intro h; simp [escapeL] at h
  | cons a t ih =>
    intro h
    rw [escapeL] at h
    by_cases ha : allowed a = true
    · rw [if_pos ha] at h
      rcases List.mem_cons.mp h with he | h2
      · rw [he]; exact List.mem_cons_self _ _
      · exact List.mem_cons_of_mem a (ih h2)
    · rw [if_neg ha] at h
      have halt : a.toNat < 128 := hhi a (Bool.not_eq_true _ ▸ eq_false_of_ne_true ha)
      rcases List.mem_cons.mp h with he | h2
      · exact absurd he.symm (by decide)
      · rcases List.mem_cons.mp h2 with he | h3
        · exact absurd he.symm (upperHexDigit_ne _ (by omega) ':' (by decide))
        · rcases List.mem_cons.mp h3 with he | h4
          · exact absurd he.symm (upperHexDigit_ne _ (by
              have := Nat.mod_lt a.toNat (show 0 < 16 by omega); omega) ':' (by decide))
          · exact List.mem_cons_of_mem a (ih h4)

theorem takeWhile_ne_slash_escapeL :
    ∀ x : List Char, (escapeL allowedPath x).takeWhile (· ≠ '/') =
      escapeL allowedPath (x.takeWhile (· ≠ '/')) := by
  intro x
  induction x with
  | nil => rfl
  | cons a t ih =>
    by_cases hsl : a = '/'
    · subst hsl
      rw [escapeL, if_pos (by decide), List.takeWhile_cons_of_neg (by decide),
        List.takeWhile_cons_of_neg (by decide)]
      rfl
    · by_cases ha : allowedPath a = true
      · rw [escapeL, if_pos ha, List.takeWhile_cons_of_pos (by simpa using hsl),
          List.takeWhile_cons_of_pos (by simpa using hsl), escapeL, if_pos ha, ih]
      · have hlt : a.toNat < 128 :=
          toNat_lt_of_not_allowedPath a (Bool.not_eq_true _ ▸ eq_false_of_ne_true ha)
        have hh1 : upperHexDigit (a.toNat / 16) ≠ '/' :=
          upperHexDigit_ne _ (by omega) '/' (by decide)
        have hh2 : upperHexDigit (a.toNat % 16) ≠ '/' :=
          upperHexDigit_ne _ (by
            have := Nat.mod_lt a.toNat (show 0 < 16 by omega); omega) '/' (by decide)
        rw [escapeL, if_neg ha, List.takeWhile_cons_of_pos (by decide),
          List.takeWhile_cons_of_pos (by simpa using hh1),
          List.takeWhile_cons_of_pos (by simpa using hh2),
          List.takeWhile_cons_of_pos (by simpa using hsl), escapeL, if_neg ha, ih]

theorem isCtl_iff (c : Char) : isCtl c = true ↔ (c.toNat < 32 ∨ c.toNat = 127) := by
  rw [isCtl]
  simp only [Bool.or_eq_true, decide_eq_true_eq, beq_iff_eq]
  constructor
  · rintro (h | h)
    · exact Or.inl (by rw [UInt32.lt_def, BitVec.lt_def] at h; exact h)
    · exact Or.inr (congrArg UInt32.toNat h)
  · rintro (h | h)
    · exact Or.inl (by rw [UInt32.lt_def, BitVec.lt_def]; exact h)
    · exact Or.inr (UInt32.ext h)

theorem isCtl_false_of_toNat (c : Char) (h1 : 32 ≤ c.toNat) (h2 : c.toNat ≠ 127) :
    isCtl c = false := by
  cases hx : isCtl c with
  | false => rfl
  | true =>
    rcases (isCtl_iff c).mp hx with h | h
    · omega
    · exact absurd h h2

theorem isAlnumCh_toNat (c : Char) (h : isAlnumCh c = true) :
    (48 ≤ c.toNat ∧ c.toNat ≤ 57) ∨ (65 ≤ c.toNat ∧ c.toNat ≤ 90) ∨
    (97 ≤ c.toNat ∧ c.toNat ≤ 122) := by
  rw [isAlnumCh, isAlphaCh, isDigitCh] at h
  simp only [Bool.or_eq_true, Bool.and_eq_true, decide_eq_true_eq] at h
  rcases h with h | ⟨h1, h2⟩
  · rcases h with ⟨h1, h2⟩ | ⟨h1, h2⟩
    · rw [char_le_iff] at h1 h2
      exact Or.inr (Or.inr ⟨h1, h2⟩)
    · rw [char_le_iff] at h1 h2
      exact Or.inr (Or.inl ⟨h1, h2⟩)
  · rw [char_le_iff] at h1 h2
    exact Or.inl ⟨h1, h2⟩

theorem toNat_eq_of_eq_char {c d : Char} (h : c = d) : c.toNat = d.toNat :=
  congrArg Char.toNat h

theorem alnum_clean (c : Char) (h : isAlnumCh c = true) :
    c ≠ '#' ∧ c ≠ '?' ∧ c ≠ '%' ∧ c ≠ '/' ∧ isCtl c = false := by
  have hr := isAlnumCh_toNat c h
  refine ⟨?_, ?_, ?_, ?_, ?_⟩
  · intro he; subst he; revert hr; decide
  · intro he; subst he; revert hr; decide
  · intro he; subst he; revert hr; decide
  · intro he; subst he; revert hr; decide
  · exact isCtl_false_of_toNat c (by omega) (by omega)

theorem beq_false_of_toNat_ne {c d : Char} (h : c.toNat ≠ d.toNat) :
    (c == d) = false := by
  cases hx : c == d with
  | false => rfl
  | true => exact absurd (congrArg Char.toNat (eq_of_beq hx)) h

theorem not_allowedPath_of_ctl (c : Char) (hc : isCtl c = true) :
    allowedPath c = false := by
  have hr := (isCtl_iff c).mp hc
  have hAl : isAlnumCh c = false := by
    cases hx : isAlnumCh c with
    | false => rfl
    | true => rcases isAlnumCh_toNat c hx with ⟨a, b⟩ | ⟨a, b⟩ | ⟨a, b⟩ <;> omega
  have hHi : (decide (0x80 ≤ c.val)) = false := by
    apply decide_eq_false
    rw [le_val_iff]
    omega
  have hch : ∀ d : Char, 32 ≤ d.toNat → d.toNat ≠ 127 → (c == d) = false :=
    fun d h1 h2 => beq_false_of_toNat_ne (by omega)
  rw [allowedPath, hAl, hHi, hch '-' (by decide) (by decide),
    hch '_' (by decide) (by decide), hch '.' (by decide) (by decide),
    hch '~' (by decide) (by decide), hch '$' (by decide) (by decide),
    hch '&' (by decide) (by decide), hch '+' (by decide) (by decide),
    hch ',' (by decide) (by decide), hch '/' (by decide) (by decide),
    hch ':' (by decide) (by decide), hch ';' (by decide) (by decide),
    hch '=' (by decide) (by decide), hch '@' (by decide) (by decide)]
  rfl

theorem not_allowedFrag_of_ctl (c : Char) (hc : isCtl c = true) :
    allowedFrag c = false := by
  have hr := (isCtl_iff c).mp hc
  have hAl : isAlnumCh c = false := by
    cases hx : isAlnumCh c with
    | false => rfl
    | true => rcases isAlnumCh_toNat c hx with ⟨a, b⟩ | ⟨a, b⟩ | ⟨a, b⟩ <;> omega
  have hHi : (decide (0x80 ≤ c.val)) = false := by
    apply decide_eq_false
    rw [le_val_iff]
    omega
  have hch : ∀ d : Char, 32 ≤ d.toNat → d.toNat ≠ 127 → (c == d) = false :=
    fun d h1 h2 => beq_false_of_toNat_ne (by omega)
  rw [allowedFrag, hAl, hHi, hch '-' (by decide) (by decide),
    hch '_' (by decide) (by decide), hch '.' (by decide) (by decide),
    hch '~' (by decide) (by decide), hch '$' (by decide) (by decide),
    hch '&' (by decide) (by decide), hch '+' (by decide) (by decide),
    hch ',' (by decide) (by decide), hch '/' (by decide) (by decide),
    hch ':' (by decide) (by decide), hch ';' (by decide) (by decide),
    hch '=' (by decide) (by decide), hch '?' (by decide) (by decide),
    hch '@' (by decide) (by decide), hch '!' (by decide) (by decide),
    hch '(' (by decide) (by decide), hch ')' (by decide) (by decide),
    hch '*' (by decide) (by decide)]
  rfl

theorem clean_of_allowedPath (c : Char) (h : allowedPath c = true) :
    c ≠ '#' ∧ c ≠ '?' ∧ isCtl c = false := by
  refine ⟨fun he => by subst he; exact absurd h (by decide),
    fun he => by subst he; exact absurd h (by decide), ?_⟩
  cases hx : isCtl c with
  | false => rfl
  | true => rw [not_allowedPath_of_ctl c hx] at h; exact Bool.noConfusion h

theorem clean_of_allowedFrag (c : Char) (h : allowedFrag c = true) :
    c ≠ '#' ∧ isCtl c = false := by
  refine ⟨fun he => by subst he; exact absurd h (by decide), ?_⟩
  cases hx : isCtl c with
  | false => rfl
  | true => rw [not_allowedFrag_of_ctl c hx] at h; exact Bool.noConfusion h

theorem clean_of_validEncExtra (c : Char) (h : validEncExtra c = true) :
    c ≠ '#' ∧ c ≠ '?' ∧ isCtl c = false := by
  refine ⟨fun he => by subst he; exact absurd h (by decide),
    fun he => by subst he; exact absurd h (by decide), ?_⟩
  cases hx : isCtl c with
  | false => rfl
  | true =>
    have hr := (isCtl_iff c).mp hx
    have hch : ∀ d : Char, 32 ≤ d.toNat → d.toNat ≠ 127 → (c == d) = false :=
      fun d h1 h2 => beq_false_of_toNat_ne (by omega)
    have h39 : (c.val == 39) = false := by
      cases hy : c.val == 39 with
      | false => rfl
      | true =>
        have : c.toNat = 39 := congrArg UInt32.toNat (eq_of_beq hy)
        omega
    rw [validEncExtra, hch '!' (by decide) (by decide),
      hch '$' (by decide) (by decide), hch '&' (by decide) (by decide), h39,
      hch '(' (by decide) (by decide), hch ')' (by decide) (by decide),
      hch '*' (by decide) (by decide), hch '+' (by decide) (by decide),
      hch ',' (by decide) (by decide), hch ';' (by decide) (by decide),
      hch '=' (by decide) (by decide), hch ':' (by decide) (by decide),
      hch '@' (by decide) (by decide), hch '[' (by decide) (by decide),
      hch ']' (by decide) (by decide)] at h
    exact Bool.noConfusion h

theorem percent_clean : ('%' : Char) ≠ '#' ∧ ('%' : Char) ≠ '?' ∧ isCtl '%' = false := by
  decide

theorem length_escapeL_ge (allowed : Char → Bool) :
    ∀ x : List Char, x.length ≤ (escapeL allowed x).length := by
  intro x
  induction x with
  | nil => exact Nat.le_refl 0
  | cons c t ih =>
    rw [escapeL]
    by_cases h : allowed c = true
    · rw [if_pos h]
      simpa using ih
    · rw [if_neg h]
      simp only [List.length_cons]
      omega

theorem escapeL_eq_self_iff (allowed : Char → Bool) :
    ∀ x : List Char, escapeL allowed x = x ↔ x.all allowed = true := by
  intro x
  induction x with
  | nil => simp [escapeL]
  | cons c t ih =>
    rw [escapeL, List.all_cons, Bool.and_eq_true]
    by_cases h : allowed c = true
    · rw [if_pos h]
      constructor
      · intro he
        injection he with h1 h2
        exact ⟨h, ih.mp h2⟩
      · rintro ⟨_, ht⟩
        rw [ih.mpr ht]
    · rw [if_neg h]
      constructor
      · intro he
        have h1 := congrArg List.length he
        simp only [List.length_cons] at h1
        have := length_escapeL_ge allowed t
        omega
      · rintro ⟨hc, _⟩
        exact absurd hc h

theorem not_allowedHost_of_ctl (c : Char) (hc : isCtl c = true) :
    allowedHost c = false := by
  have hr := (isCtl_iff c).mp hc
  have hAl : isAlnumCh c = false := by
    cases hx : isAlnumCh c with
    | false => rfl
    | true => rcases isAlnumCh_toNat c hx with ⟨a, b⟩ | ⟨a, b⟩ | ⟨a, b⟩ <;> omega
  have hHi : (decide (0x80 ≤ c.val)) = false := by
    apply decide_eq_false
    rw [le_val_iff]
    omega
  have hch : ∀ d : Char, 32 ≤ d.toNat → d.toNat ≠ 127 → (c == d) = false :=
    fun d h1 h2 => beq_false_of_toNat_ne (by omega)
  have h39 : (c.val == 39) = false := by
    cases hy : c.val == 39 with
    | false => rfl
    | true =>
      have : c.toNat = 39 := congrArg UInt32.toNat (eq_of_beq hy)
      omega
  rw [allowedHost, hAl, hHi, hch '-' (by decide) (by decide),
    hch '_' (by decide) (by decide), hch '.' (by decide) (by decide),
    hch '~' (by decide) (by decide), hch '!' (by decide) (by decide),
    hch '$' (by decide) (by decide), hch '&' (by decide) (by decide), h39,
    hch '(' (by decide) (by decide), hch ')' (by decide) (by decide),
    hch '*' (by decide) (by decide), hch '+' (by decide) (by decide),
    hch ',' (by decide) (by decide), hch ';' (by decide) (by decide),
    hch '=' (by decide) (by decide), hch ':' (by decide) (by decide),
    hch '[' (by decide) (by decide), hch ']' (by decide) (by decide),
    hch '<' (by decide) (by decide), hch '>' (by decide) (by decide),
    hch '\"' (by decide) (by decide)]
  rfl

theorem host_clean (c : Char) (h : allowedHost c = true) :
    c ≠ '#' ∧ c ≠ '?' ∧ c ≠ '/' ∧ isCtl c = false := by
  refine ⟨fun he => by subst he; exact absurd h (by decide),
    fun he => by subst he; exact absurd h (by decide),
    fun he => by subst he; exact absurd h (by decide), ?_⟩
  cases hx : isCtl c with
  | false => rfl
  | true => rw [not_allowedHost_of_ctl c hx] at h; exact Bool.noConfusion h

theorem toNat_lt_of_not_allowedFrag (c : Char) (h : allowedFrag c = false) :
    c.toNat < 128 := by
  by_contra hge
  push_neg at hge
  rw [allowedFrag_high c ((le_val_iff c).mpr hge)] at h
  exact Bool.noConfusion h

theorem toNat_lt_of_not_allowedHost (c : Char) (h : allowedHost c = false) :
    c.toNat < 128 := by
  by_contra hge
  push_neg at hge
  rw [allowedHost_high c ((le_val_iff c).mpr hge)] at h
  exact Bool.noConfusion h

theorem hhi_path : ∀ c : Char, allowedPath c = false → c.toNat < 128 :=
  toNat_lt_of_not_allowedPath

theorem hhi_frag : ∀ c : Char, allowedFrag c = false → c.toNat < 128 :=
  toNat_lt_of_not_allowedFrag

theorem hhi_host : ∀ c : Char, allowedHost c = false → c.toNat < 128 :=
  toNat_lt_of_not_allowedHost

theorem bool_false_of_ne_true {b : Bool} (h : ¬ b = true) : b = false :=
  Bool.not_eq_true _ ▸ eq_false_of_ne_true h

theorem escapeL_path_clean (x : List Char) (c : Char)
    (hc : c ∈ escapeL allowedPath x) :
    c ≠ '#' ∧ c ≠ '?' ∧ isCtl c = false := by
  rcases mem_escapeL allowedPath hhi_path x c hc with h | h | h
  · exact clean_of_allowedPath c h
  · subst h; exact percent_clean
  · have := alnum_clean c h
    exact ⟨this.1, this.2.1, this.2.2.2.2⟩

theorem escapeL_frag_clean (x : List Char) (c : Char)
    (hc : c ∈ escapeL allowedFrag x) :
    c ≠ '#' ∧ isCtl c = false := by
  rcases mem_escapeL allowedFrag hhi_frag x c hc with h | h | h
  · exact clean_of_allowedFrag c h
  · subst h; exact ⟨percent_clean.1, percent_clean.2.2⟩
  · have := alnum_clean c h
    exact ⟨this.1, this.2.2.2.2⟩

theorem escapeL_host_clean (x : List Char) (c : Char)
    (hc : c ∈ escapeL allowedHost x) :
    c ≠ '#' ∧ c ≠ '?' ∧ c ≠ '/' ∧ isCtl c = false := by
  rcases mem_escapeL allowedHost hhi_host x c hc with h | h | h
  · exact host_clean c h
  · subst h; exact ⟨percent_clean.1, percent_clean.2.1, by decide,
      percent_clean.2.2⟩
  · have := alnum_clean c h
    exact ⟨this.1, this.2.1, this.2.2.2.1, this.2.2.2.2⟩

theorem isAlphaCh_toNat (c : Char) (h : isAlphaCh c = true) :
    (65 ≤ c.toNat ∧ c.toNat ≤ 90) ∨ (97 ≤ c.toNat ∧ c.toNat ≤ 122) := by
  rw [isAlphaCh] at h
  simp only [Bool.or_eq_true, Bool.and_eq_true, decide_eq_true_eq] at h
  rcases h with ⟨h1, h2⟩ | ⟨h1, h2⟩
  · rw [char_le_iff] at h1 h2
    exact Or.inr ⟨h1, h2⟩
  · rw [char_le_iff] at h1 h2
    exact Or.inl ⟨h1, h2⟩

theorem isAlphaCh_of_toNat (c : Char)
    (h : (65 ≤ c.toNat ∧ c.toNat ≤ 90) ∨ (97 ≤ c.toNat ∧ c.toNat ≤ 122)) :
    isAlphaCh c = true := by
  rw [isAlphaCh]
  rcases h with ⟨h1, h2⟩ | ⟨h1, h2⟩
  · have ha : 'A' ≤ c := char_le_iff.mpr h1
    have hb : c ≤ 'Z' := char_le_iff.mpr h2
    simp [ha, hb]
  · have ha : 'a' ≤ c := char_le_iff.mpr h1
    have hb : c ≤ 'z' := char_le_iff.mpr h2
    simp [ha, hb]

theorem toLowerChar_toNat (c : Char) :
    (toLowerChar c).toNat =
      if 65 ≤ c.toNat ∧ c.toNat ≤ 90 then c.toNat + 32 else c.toNat := by
  rw [toLowerChar]
  by_cases h : 65 ≤ c.toNat ∧ c.toNat ≤ 90
  · have hb : ('A' ≤ c && c ≤ 'Z') = true := by
      have h1 : 'A' ≤ c := char_le_iff.mpr h.1
      have h2 : c ≤ 'Z' := char_le_iff.mpr h.2
      simp [h1, h2]
    rw [if_pos hb, if_pos h]
    exact toNat_ofNat_valid _ (by omega)
  · have hb : ('A' ≤ c && c ≤ 'Z') = false := by
      cases hx : ('A' ≤ c && c ≤ 'Z') with
      | false => rfl
      | true =>
        rw [Bool.and_eq_true, decide_eq_true_eq, decide_eq_true_eq] at hx
        exact absurd ⟨char_le_iff.mp hx.1, char_le_iff.mp hx.2⟩ h
    rw [if_neg (by rw [hb]; exact Bool.false_ne_true), if_neg h]

theorem toLowerChar_idem (c : Char) :
    toLowerChar (toLowerChar c) = toLowerChar c := by
  apply char_toNat_inj
  simp only [toLowerChar_toNat]
  split_ifs <;> omega

theorem goToLower_idem (l : List Char) : goToLower (goToLower l) = goToLower l := by
  rw [goToLower, goToLower, List.map_map]
  apply List.map_congr_left
  intro c _
  exact toLowerChar_idem c

theorem isAlphaCh_toLower (c : Char) (h : isAlphaCh c = true) :
    isAlphaCh (toLowerChar c) = true := by
  apply isAlphaCh_of_toNat
  rw [toLowerChar_toNat]
  rcases isAlphaCh_toNat c h with ⟨h1, h2⟩ | ⟨h1, h2⟩
  · rw [if_pos ⟨h1, h2⟩]; omega
  · rw [if_neg (by omega)]; omega

theorem schemeChar_toNat (c : Char) (h : schemeChar c = true) :
    (48 ≤ c.toNat ∧ c.toNat ≤ 57) ∨ (65 ≤ c.toNat ∧ c.toNat ≤ 90) ∨
    (97 ≤ c.toNat ∧ c.toNat ≤ 122) ∨ c.toNat = 43 ∨ c.toNat = 45 ∨
    c.toNat = 46 := by
  rw [schemeChar] at h
  simp only [Bool.or_eq_true, beq_iff_eq] at h
  rcases h with ((((h | h) | h) | h) | h)
  · rcases isAlphaCh_toNat c h with hr | hr
    · exact Or.inr (Or.inl hr)
    · exact Or.inr (Or.inr (Or.inl hr))
  · rw [isDigitCh] at h
    simp only [Bool.and_eq_true, decide_eq_true_eq] at h
    rw [char_le_iff, char_le_iff] at h
    exact Or.inl h
  · subst h; exact Or.inr (Or.inr (Or.inr (Or.inl rfl)))
  · subst h; exact Or.inr (Or.inr (Or.inr (Or.inr (Or.inl rfl))))
  · subst h; exact Or.inr (Or.inr (Or.inr (Or.inr (Or.inr rfl))))

theorem schemeChar_of_toNat (c : Char)
    (h : (48 ≤ c.toNat ∧ c.toNat ≤ 57) ∨ (65 ≤ c.toNat ∧ c.toNat ≤ 90) ∨
      (97 ≤ c.toNat ∧ c.toNat ≤ 122) ∨ c.toNat = 43 ∨ c.toNat = 45 ∨
      c.toNat = 46) :
    schemeChar c = true := by
  rw [schemeChar]
  rcases h with hr | hr | hr | hr | hr | hr
  · have hd : isDigitCh c = true := by
      rw [isDigitCh]
      have ha : '0' ≤ c := char_le_iff.mpr hr.1
      have hb : c ≤ '9' := char_le_iff.mpr hr.2
      simp [ha, hb]
    simp [hd]
  · simp [isAlphaCh_of_toNat c (Or.inl hr)]
  · simp [isAlphaCh_of_toNat c (Or.inr hr)]
  · have : c = '+' := char_toNat_inj hr
    subst this; decide
  · have : c = '-' := char_toNat_inj hr
    subst this; decide
  · have : c = '.' := char_toNat_inj hr
    subst this; decide

theorem schemeChar_toLower (c : Char) (h : schemeChar c = true) :
    schemeChar (toLowerChar c) = true := by
  apply schemeChar_of_toNat
  rw [toLowerChar_toNat]
  rcases schemeChar_toNat c h with hr | hr | hr | hr | hr | hr <;>
    [skip; rw [if_pos (by omega)]; skip; skip; skip; skip] <;>
    first
      | omega
      | (rw [if_neg (by omega)]; omega)

theorem schemeChar_clean (c : Char) (h : schemeChar c = true) :
    c ≠ '#' ∧ c ≠ '?' ∧ c ≠ ':' ∧ c ≠ '/' ∧ c ≠ '*' ∧ isCtl c = false := by
  have hr := schemeChar_toNat c h
  refine ⟨?_, ?_, ?_, ?_, ?_, ?_⟩
  · intro he; subst he; revert hr; decide
  · intro he; subst he; revert hr; decide
  · intro he; subst he; revert hr; decide
  · intro he; subst he; revert hr; decide
  · intro he; subst he; revert hr; decide
  · exact isCtl_false_of_toNat c (by omega) (by omega)

theorem beq_false_of_ne {a b : Char} (h : a ≠ b) : (a == b) = false := by
  cases hx : a == b with
  | false => rfl
  | true => exact absurd (eq_of_beq hx) h

theorem countChar_cons (c a : Char) (l : List Char) :
    countChar c (a :: l) = countChar c l + if a == c then 1 else 0 := by
  rw [countChar, countChar, List.countP_cons]

theorem countChar_append (c : Char) (a b : List Char) :
    countChar c (a ++ b) = countChar c a + countChar c b := by
  rw [countChar, countChar, countChar, List.countP_append]

theorem countChar_escapeL (allowed : Char → Bool)
    (hhi : ∀ c : Char, allowed c = false → c.toNat < 128)
    (hamp : allowed '&' = true) :
    ∀ x : List Char, countChar '&' (escapeL allowed x) = countChar '&' x := by
  intro x
  induction x with
  | nil => rfl
  | cons a t ih =>
    rw [escapeL]
    by_cases ha : allowed a = true
    · rw [if_pos ha, countChar_cons, countChar_cons, ih]
    · have ha2 : allowed a = false := bool_false_of_ne_true ha
      have hane : (a == '&') = false := by
        cases hx : a == '&' with
        | false => rfl
        | true =>
          have he : a = '&' := eq_of_beq hx
          subst he
          rw [hamp] at ha2
          exact Bool.noConfusion ha2
      have hlt : a.toNat < 128 := hhi a ha2
      have h1 : (upperHexDigit (a.toNat / 16) == '&') = false :=
        beq_false_of_ne (upperHexDigit_ne _ (by omega) '&' (by decide))
      have h2 : (upperHexDigit (a.toNat % 16) == '&') = false :=
        beq_false_of_ne (upperHexDigit_ne _ (by
          have := Nat.mod_lt a.toNat (show 0 < 16 by omega); omega) '&' (by decide))
      rw [if_neg ha, countChar_cons, countChar_cons, countChar_cons,
        countChar_cons, ih, hane, h1, h2]
      simp

theorem toLowerChar_amp (c : Char) : (toLowerChar c == '&') = (c == '&') := by
  by_cases h : 65 ≤ c.toNat ∧ c.toNat ≤ 90
  · have h1 : (toLowerChar c).toNat = c.toNat + 32 := by
      rw [toLowerChar_toNat, if_pos h]
    have e1 : (toLowerChar c == '&') = false :=
      beq_false_of_toNat_ne (by rw [h1]; show c.toNat + 32 ≠ 38; omega)
    have e2 : (c == '&') = false :=
      beq_false_of_toNat_ne (by show c.toNat ≠ 38; omega)
    rw [e1, e2]
  · have he : toLowerChar c = c := by
      apply char_toNat_inj
      rw [toLowerChar_toNat, if_neg h]
    rw [he]

theorem countChar_goToLower (l : List Char) :
    countChar '&' (goToLower l) = countChar '&' l := by
  induction l with
  | nil => rfl
  | cons a t ih =>
    simp only [goToLower, List.map_cons]
    simp only [goToLower] at ih
    rw [countChar_cons, countChar_cons, ih, toLowerChar_amp]

theorem getLast?_decomp :
    ∀ (l : List Char) (a : Char), l.getLast? = some a → ∃ t, l = t ++ [a] := by
  intro l
  induction l with
  | nil => intro a h; exact Option.noConfusion h
  | cons x xs ih =>
    intro a h
    cases xs with
    | nil =>
      refine ⟨[], ?_⟩
      have : x = a := by
        rw [List.getLast?_singleton] at h
        exact Option.some.inj h
      rw [this]
      rfl
    | cons y ys =>
      rw [List.getLast?_cons_cons] at h
      obtain ⟨t, ht⟩ := ih a h
      exact ⟨x :: t, by rw [ht]; rfl⟩

theorem cutChar_inv_true (sep : Char) :
    ∀ (l pre post : List Char), cutChar sep l = (pre, post, true) →
      l = pre ++ sep :: post ∧ pre.contains sep = false := by
  intro l
  induction l with
  | nil =>
    intro pre post h
    rw [cutChar] at h
    simp at h
  | cons a rest ih =>
    intro pre post h
    rw [cutChar] at h
    by_cases ha : a = sep
    · rw [if_pos ha] at h
      simp only [Prod.mk.injEq] at h
      obtain ⟨h1, h2, -⟩ := h
      subst h1
      subst h2
      subst ha
      exact ⟨rfl, rfl⟩
    · rw [if_neg ha] at h
      simp only [Prod.mk.injEq] at h
      obtain ⟨h1, h2, h3⟩ := h
      have hcc : cutChar sep rest =
          ((cutChar sep rest).1, (cutChar sep rest).2.1, (cutChar sep rest).2.2) :=
        rfl
      obtain ⟨ih1, ih2⟩ := ih (cutChar sep rest).1 (cutChar sep rest).2.1
        (h3 ▸ hcc)
      subst h1
      subst h2
      constructor
      · rw [List.cons_append, ← ih1]
      · rw [contains_false_iff]
        intro hm
        rcases List.mem_cons.mp hm with he | hm2
        · exact ha he.symm
        · exact (contains_false_iff _ _).mp ih2 hm2

theorem cutChar_inv_false (sep : Char) :
    ∀ (l pre post : List Char), cutChar sep l = (pre, post, false) →
      pre = l ∧ post = [] ∧ l.contains sep = false := by
  intro l
  induction l with
  | nil =>
    intro pre post h
    rw [cutChar] at h
    simp only [Prod.mk.injEq] at h
    exact ⟨h.1.symm, h.2.1.symm, rfl⟩
  | cons a rest ih =>
    intro pre post h
    rw [cutChar] at h
    by_cases ha : a = sep
    · rw [if_pos ha] at h
      simp at h
    · rw [if_neg ha] at h
      simp only [Prod.mk.injEq] at h
      obtain ⟨h1, h2, h3⟩ := h
      have hcc : cutChar sep rest =
          ((cutChar sep rest).1, (cutChar sep rest).2.1, (cutChar sep rest).2.2) :=
        rfl
      obtain ⟨ih1, ih2, ih3⟩ := ih (cutChar sep rest).1 (cutChar sep rest).2.1
        (h3 ▸ hcc)
      subst h1
      subst h2
      refine ⟨by rw [ih1], ih2, ?_⟩
      rw [contains_false_iff]
      intro hm
      rcases List.mem_cons.mp hm with he | hm2
      · exact ha he.symm
      · exact (contains_false_iff _ _).mp ih3 hm2

theorem splitKeep_inv (sep : Char) :
    ∀ (l pre post : List Char), splitKeep sep l = (pre, post) →
      l = pre ++ post ∧ pre.contains sep = false ∧
      (post = [] ∨ post.head? = some sep) := by
  intro l
  induction l with
  | nil =>
    intro pre post h
    rw [splitKeep] at h
    simp only [Prod.mk.injEq] at h
    obtain ⟨h1, h2⟩ := h
    subst h1
    subst h2
    exact ⟨rfl, rfl, Or.inl rfl⟩
  | cons a rest ih =>
    intro pre post h
    rw [splitKeep] at h
    by_cases ha : a = sep
    · rw [if_pos ha] at h
      simp only [Prod.mk.injEq] at h
      obtain ⟨h1, h2⟩ := h
      subst h1
      subst h2
      subst ha
      exact ⟨rfl, rfl, Or.inr rfl⟩
    · rw [if_neg ha] at h
      simp only [Prod.mk.injEq] at h
      obtain ⟨h1, h2⟩ := h
      have hcc : splitKeep sep rest =
          ((splitKeep sep rest).1, (splitKeep sep rest).2) := rfl
      obtain ⟨ih1, ih2, ih3⟩ := ih (splitKeep sep rest).1 (splitKeep sep rest).2
        hcc
      subst h1
      subst h2
      refine ⟨by rw [List.cons_append, ← ih1], ?_, ih3⟩
      rw [contains_false_iff]
      intro hm
      rcases List.mem_cons.mp hm with he | hm2
      · exact ha he.symm
      · exact (contains_false_iff _ _).mp ih2 hm2

theorem getSchemeAux_inv (full : List Char) :
    ∀ (xs acc S0 R0 : List Char), getSchemeAux full xs acc = some (S0, R0) →
      (S0 = [] ∧ R0 = full) ∨
      (∃ pre, xs = pre ++ ':' :: R0 ∧ S0 = acc.reverse ++ pre ∧
        pre.all schemeChar = true) := by
  intro xs
  induction xs with
  | nil =>
    intro acc S0 R0 h
    rw [getSchemeAux] at h
    simp only [Option.some.injEq, Prod.mk.injEq] at h
    exact Or.inl ⟨h.1.symm, h.2.symm⟩
  | cons x rest ih =>
    intro acc S0 R0 h
    rw [getSchemeAux] at h
    by_cases hx : schemeChar x = true
    · rw [if_pos hx] at h
      rcases ih (x :: acc) S0 R0 h with hl | ⟨pre, hp1, hp2, hp3⟩
      · exact Or.inl hl
      · refine Or.inr ⟨x :: pre, ?_, ?_, ?_⟩
        · rw [hp1, List.cons_append]
        · rw [hp2, List.reverse_cons, List.append_assoc, List.singleton_append]
        · rw [List.all_cons, hx, hp3]
          rfl
    · rw [if_neg hx] at h
      by_cases hc : x = ':'
      · rw [if_pos hc] at h
        simp only [Option.some.injEq, Prod.mk.injEq] at h
        refine Or.inr ⟨[], ?_, ?_, rfl⟩
        · rw [hc, h.2]
          rfl
        · rw [← h.1, List.append_nil]
      · rw [if_neg hc] at h
        simp only [Option.some.injEq, Prod.mk.injEq] at h
        exact Or.inl ⟨h.1.symm, h.2.symm⟩

theorem getSchemeGo_inv (l S0 R0 : List Char)
    (h : getSchemeGo l = some (S0, R0)) :
    (S0 = [] ∧ R0 = l) ∨
    (l = S0 ++ ':' :: R0 ∧ S0 ≠ [] ∧ S0.all schemeChar = true ∧
      (∀ c, S0.head? = some c → isAlphaCh c = true)) := by
  cases l with
  | nil =>
    rw [getSchemeGo] at h
    simp only [Option.some.injEq, Prod.mk.injEq] at h
    exact Or.inl ⟨h.1.symm, h.2.symm⟩
  | cons c rest =>
    rw [getSchemeGo] at h
    by_cases hc : isAlphaCh c = true
    · rw [if_pos hc] at h
      rcases getSchemeAux_inv (c :: rest) rest [c] S0 R0 h with
        ⟨h1, h2⟩ | ⟨pre, hp1, hp2, hp3⟩
      · exact Or.inl ⟨h1, h2⟩
      · have hsc : schemeChar c = true := by
          rw [schemeChar, hc]
          rfl
        have hS : S0 = c :: pre := by
          rw [hp2]
          rfl
        refine Or.inr ⟨?_, ?_, ?_, ?_⟩
        · rw [hS, hp1, List.cons_append]
        · rw [hS]
          exact List.cons_ne_nil c pre
        · rw [hS, List.all_cons, hsc, hp3]
          rfl
        · intro d hd
          rw [hS] at hd
          have : d = c := (Option.some.inj (show some c = some d from hd)).symm
          rw [this]
          exact hc
    · rw [if_neg hc] at h
      by_cases hcc : c = ':'
      · rw [if_pos hcc] at h
        exact Option.noConfusion h
      · rw [if_neg hcc] at h
        simp only [Option.some.injEq, Prod.mk.injEq] at h
        exact Or.inl ⟨h.1.symm, h.2.symm⟩

theorem list_concat_cases (l : List Char) :
    l = [] ∨ ∃ t a, l = t ++ [a] := by
  induction l with
  | nil => exact Or.inl rfl
  | cons x xs ih =>
    rcases ih with h0 | ⟨t, a, hta⟩
    · subst h0
      exact Or.inr ⟨[], x, rfl⟩
    · exact Or.inr ⟨x :: t, a, by rw [hta]; rfl⟩

theorem queryCut_build (core RQ : List Char) (FQ : Bool)
    (hq : core.contains '?' = false) (hforce : FQ = true → RQ = []) :
    queryCut (core ++ (if FQ || RQ ≠ [] then '?' :: RQ else [])) =
      (core, FQ, RQ) := by
  cases FQ with
  | true =>
    have hRQ : RQ = [] := hforce rfl
    subst hRQ
    simp only [Bool.true_or, if_true]
    have h1 : (core ++ ['?']).getLast? = some '?' := List.getLast?_concat _
    have h2 : (core ++ ['?']).dropLast = core := List.dropLast_concat
    rw [queryCut, h1, h2, hq]
    simp
  | false =>
    by_cases hRQ : RQ = []
    · subst hRQ
      have harg : (if (false || (([] : List Char) ≠ [] : Bool)) = true
          then '?' :: ([] : List Char) else []) = [] := by simp
      rw [harg, List.append_nil]
      cases hl : core.getLast? with
      | none =>
        rw [queryCut, hl]
        simp [cutChar_not_mem '?' core hq]
      | some a =>
        have hane : a ≠ '?' := by
          intro he
          subst he
          obtain ⟨t, ht⟩ := getLast?_decomp core '?' hl
          rw [ht] at hq
          exact (contains_false_iff _ _).mp hq (by simp)
        rw [queryCut, hl]
        simp [hane, cutChar_not_mem '?' core hq]
    · have harg : (if (false || (RQ ≠ [] : Bool)) = true
          then '?' :: RQ else []) = '?' :: RQ := by simp [hRQ]
      rw [harg]
      rcases list_concat_cases RQ with h0 | ⟨t, a, hta⟩
      · exact absurd h0 hRQ
      · by_cases ha : a = '?'
        · subst ha
          subst hta
          have hre : core ++ '?' :: (t ++ ['?']) = (core ++ '?' :: t) ++ ['?'] := by
            simp
          have hl : (core ++ '?' :: (t ++ ['?'])).getLast? = some '?' := by
            rw [hre]
            exact List.getLast?_concat _
          have hd : (core ++ '?' :: (t ++ ['?'])).dropLast = core ++ '?' :: t := by
            rw [hre]
            exact List.dropLast_concat
          have hcont : (core ++ '?' :: t).contains '?' = true := by
            rw [contains_iff_mem]
            simp
          rw [queryCut, hl, hd, hcont]
          simp [cutChar_append_sep '?' core (t ++ ['?']) hq]
        · have hl : (core ++ '?' :: RQ).getLast? = some a := by
            rw [hta, show core ++ '?' :: (t ++ [a]) = (core ++ '?' :: t) ++ [a]
              by simp]
            exact List.getLast?_concat _
          rw [queryCut, hl]
          simp [ha, cutChar_append_sep '?' core RQ hq]

theorem queryCut_inv (r0 rest rq : List Char) (fq : Bool)
    (h : queryCut r0 = (rest, fq, rq)) :
    rest.contains '?' = false ∧
    ((fq = true ∧ rq = [] ∧ r0 = rest ++ ['?']) ∨
     (fq = false ∧ rq = [] ∧ r0 = rest) ∨
     (fq = false ∧ r0 = rest ++ '?' :: rq)) := by
  rw [queryCut] at h
  by_cases hc : (r0.getLast? = some '?' && !r0.dropLast.contains '?') = true
  · rw [if_pos hc] at h
    simp only [Prod.mk.injEq] at h
    obtain ⟨h1, h2, h3⟩ := h
    rw [Bool.and_eq_true, decide_eq_true_eq, Bool.not_eq_true'] at hc
    obtain ⟨t, ht⟩ := getLast?_decomp r0 '?' hc.1
    have hdl : r0.dropLast = t := by
      rw [ht]
      exact List.dropLast_concat
    subst h1
    refine ⟨hc.2, Or.inl ⟨h2.symm, h3.symm, ?_⟩⟩
    rw [hdl, ← ht]
  · rw [if_neg hc] at h
    simp only [Prod.mk.injEq] at h
    obtain ⟨h1, h2, h3⟩ := h
    have hcc : cutChar '?' r0 =
        ((cutChar '?' r0).1, (cutChar '?' r0).2.1, (cutChar '?' r0).2.2) := rfl
    cases hb : (cutChar '?' r0).2.2 with
    | true =>
      obtain ⟨d1, d2⟩ := cutChar_inv_true '?' r0 _ _ (hb ▸ hcc)
      refine ⟨by rw [← h1]; exact d2, Or.inr (Or.inr ⟨h2.symm, ?_⟩)⟩
      rw [← h1, ← h3]
      exact d1
    | false =>
      obtain ⟨d1, d2, d3⟩ := cutChar_inv_false '?' r0 _ _ (hb ▸ hcc)
      refine ⟨?_, Or.inr (Or.inl ⟨h2.symm, ?_, ?_⟩)⟩
      · rw [← h1, d1]
        exact d3
      · rw [← h3]
        exact d2
      · rw [← h1, d1]

theorem dropWhile_append_colon :
    ∀ (A B : List Char), (A.takeWhile (· ≠ '/')).contains ':' = false →
      (B = [] ∨ B.head? = some '?') →
      ((A ++ B).dropWhile schemeChar).head? ≠ some ':' := by
  intro A
  induction A with
  | nil =>
    intro B _ hB
    rcases hB with rfl | hB
    · simp
    · cases B with
      | nil => simp
      | cons b bs =>
        have hb : b = '?' := Option.some.inj (show some b = some '?' from hB)
        subst hb
        rw [List.nil_append,
          List.dropWhile_cons_of_neg (by decide : ¬ schemeChar '?' = true)]
        simp
  | cons a A2 ih =>
    intro B hA hB
    by_cases hs : schemeChar a = true
    · have hslash : a ≠ '/' := (schemeChar_clean a hs).2.2.2.1
      rw [List.takeWhile_cons_of_pos (by simpa using hslash)] at hA
      have hA2 : (A2.takeWhile (· ≠ '/')).contains ':' = false := by
        rw [contains_false_iff] at hA ⊢
        exact fun hm => hA (List.mem_cons_of_mem a hm)
      rw [List.cons_append, List.dropWhile_cons_of_pos hs]
      exact ih B hA2 hB
    · rw [List.cons_append, List.dropWhile_cons_of_neg (by simpa using hs)]
      intro hcon
      have ha : a = ':' := Option.some.inj (show some a = some ':' from hcon)
      subst ha
      rw [List.takeWhile_cons_of_pos (by decide)] at hA
      exact (contains_false_iff _ _).mp hA (List.mem_cons_self _ _)

theorem head_ne_colon_of (A B : List Char)
    (hA : (A.takeWhile (· ≠ '/')).contains ':' = false)
    (hB : B = [] ∨ B.head? = some '?') :
    (A ++ B).head? ≠ some ':' := by
  cases A with
  | nil =>
    rcases hB with rfl | hB
    · simp
    · rw [List.nil_append, hB]
      simp
  | cons a A2 =>
    intro hcon
    have ha : a = ':' := Option.some.inj (show some a = some ':' from hcon)
    subst ha
    rw [List.takeWhile_cons_of_pos (by decide)] at hA
    exact (contains_false_iff _ _).mp hA (List.mem_cons_self _ _)

theorem getSchemeGo_path (A B : List Char)
    (hA : (A.takeWhile (· ≠ '/')).contains ':' = false)
    (hB : B = [] ∨ B.head? = some '?') :
    getSchemeGo (A ++ B) = some ([], A ++ B) :=
  getSchemeGo_no_colon _ (head_ne_colon_of A B hA hB)
    (dropWhile_append_colon A B hA hB)

theorem getSchemeGo_slash (xs : List Char) :
    getSchemeGo ('/' :: xs) = some ([], '/' :: xs) := by
  rw [getSchemeGo, if_neg (by decide), if_neg (by decide)]

theorem parseURL_no_frag (t : List Char) (ht : t.contains '#' = false) :
    parseURL t = parseInner t := by
  rw [parseURL]
  simp only [cutChar_not_mem '#' t ht]
  cases hpi : parseInner t with
  | none => simp
  | some u => simp

theorem parseURL_frag (I EF : List Char) (hI : I.contains '#' = false)
    (hEF : EF ≠ []) :
    parseURL (I ++ '#' :: EF) =
      match parseInner I with
      | none => none
      | some v => setFragmentGo EF v := by
  rw [parseURL]
  simp only [cutChar_append_sep '#' I EF hI]
  cases hpi : parseInner I with
  | none => simp
  | some v => simp [hEF]

theorem parseInner_eval (t S0 rest0 : List Char)
    (h1 : t.any isCtl = false) (h2 : t ≠ ['*'])
    (h3 : getSchemeGo t = some (S0, rest0)) :
    parseInner t = parseInnerCore (goToLower S0) rest0 := by
  rw [parseInner, if_neg (by rw [h1]; exact Bool.false_ne_true), if_neg h2, h3]

theorem any_false_mem (l : List Char) (p : Char → Bool)
    (h : l.any p = false) {x : Char} (hm : x ∈ l) : p x = false := by
  cases hx : p x with
  | false => rfl
  | true =>
    exact absurd (List.any_eq_true.mpr ⟨x, hm, hx⟩)
      (by rw [h]; exact Bool.false_ne_true)

theorem all_clean3_of (l : List Char)
    (h1 : ∀ c ∈ l, c ≠ '#') (h2 : ∀ c ∈ l, c ≠ '?')
    (h3 : ∀ c ∈ l, isCtl c = false) :
    (l.all fun c => !(c == '#') && !(c == '?') && !isCtl c) = true := by
  rw [List.all_eq_true]
  intro c hc
  rw [beq_false_of_ne (h1 c hc), beq_false_of_ne (h2 c hc), h3 c hc]
  rfl

theorem all_clean2_of (l : List Char)
    (h1 : ∀ c ∈ l, c ≠ '#') (h3 : ∀ c ∈ l, isCtl c = false) :
    (l.all fun c => !(c == '#') && !isCtl c) = true := by
  rw [List.all_eq_true]
  intro c hc
  rw [beq_false_of_ne (h1 c hc), h3 c hc]
  rfl

theorem isPrefOf_single_of_head (c : Char) (l : List Char)
    (h : l.head? = some c) : isPrefOf [c] l = true := by
  cases l with
  | nil => exact Option.noConfusion h
  | cons a as =>
    have : a = c := Option.some.inj (show some a = some c from h)
    subst this
    simp [isPrefOf]

theorem isPrefOf_one_of_two (l : List Char)
    (h : isPrefOf ['/', '/'] l = true) : isPrefOf ['/'] l = true := by
  obtain ⟨t, ht⟩ := (isPrefOf_iff _ _).mp h
  exact (isPrefOf_iff _ _).mpr ⟨'/' :: t, by rw [ht]; rfl⟩

theorem goToLower_scheme_all (S0 : List Char) (h : S0.all schemeChar = true) :
    (goToLower S0).all schemeChar = true := by
  rw [goToLower, List.all_map]
  rw [List.all_eq_true] at h ⊢
  intro c hc
  exact schemeChar_toLower c (h c hc)

theorem goToLower_head_alpha (S0 : List Char)
    (h : ∀ c, S0.head? = some c → isAlphaCh c = true) :
    ∀ c, (goToLower S0).head? = some c → isAlphaCh c = true := by
  cases S0 with
  | nil => intro c hc; exact Option.noConfusion hc
  | cons a as =>
    intro c hc
    have : c = toLowerChar a :=
      (Option.some.inj (show some (toLowerChar a) = some c from hc)).symm
    subst this
    exact isAlphaCh_toLower a (h a rfl)

theorem goToLower_ne_nil (S0 : List Char) (h : S0 ≠ []) :
    goToLower S0 ≠ [] := by
  cases S0 with
  | nil => exact absurd rfl h
  | cons a as => exact List.cons_ne_nil _ _

theorem clean3_elim (l : List Char)
    (h : (l.all fun c => !(c == '#') && !(c == '?') && !isCtl c) = true) :
    ∀ c ∈ l, c ≠ '#' ∧ c ≠ '?' ∧ isCtl c = false := by
  intro c hc
  have hx := List.all_eq_true.mp h c hc
  simp only [Bool.and_eq_true, Bool.not_eq_true'] at hx
  refine ⟨fun he => ?_, fun he => ?_, hx.2⟩
  · rw [he] at hx
    simp at hx
  · rw [he] at hx
    simp at hx

theorem clean2_elim (l : List Char)
    (h : (l.all fun c => !(c == '#') && !isCtl c) = true) :
    ∀ c ∈ l, c ≠ '#' ∧ isCtl c = false := by
  intro c hc
  have hx := List.all_eq_true.mp h c hc
  simp only [Bool.and_eq_true, Bool.not_eq_true'] at hx
  refine ⟨fun he => ?_, hx.2⟩
  rw [he] at hx
  simp at hx

theorem contains_false_of_mem (l : List Char) (c : Char)
    (h : ∀ x ∈ l, x ≠ c) : l.contains c = false :=
  (contains_false_iff l c).mpr (fun hm => h c hm rfl)

theorem contains_append_false (a b : List Char) (c : Char)
    (ha : a.contains c = false) (hb : b.contains c = false) :
    (a ++ b).contains c = false := by
  rw [contains_false_iff] at ha hb ⊢
  intro hm
  rcases List.mem_append.mp hm with h | h
  · exact ha h
  · exact hb h

theorem any_false_of_mem (l : List Char) (p : Char → Bool)
    (h : ∀ x ∈ l, p x = false) : l.any p = false := by
  cases hx : l.any p with
  | false => rfl
  | true =>
    obtain ⟨x, hm, hpx⟩ := List.any_eq_true.mp hx
    rw [h x hm] at hpx
    exact Bool.noConfusion hpx

theorem any_append_false (a b : List Char) (p : Char → Bool)
    (ha : a.any p = false) (hb : b.any p = false) :
    (a ++ b).any p = false := by
  apply any_false_of_mem
  intro x hm
  rcases List.mem_append.mp hm with h | h
  · exact any_false_mem a p ha h
  · exact any_false_mem b p hb h

theorem append_colon_ne_star (S A : List Char) (hS : S ≠ []) :
    (S ++ [':']) ++ A ≠ ['*'] := by
  intro he
  have hl := congrArg List.length he
  simp only [List.length_append, List.length_cons, List.length_nil,
    List.length_singleton] at hl
  cases S with
  | nil => exact hS rfl
  | cons a as =>
    simp only [List.length_cons] at hl
    omega

theorem escapedPath_spec (u : GoURL)
    (h7 : (u.rawPath = [] ∧ (escapeL allowedPath u.path = u.path ∨
        u.path = ['*'])) ∨
      (u.rawPath = u.path ∧ escapeL allowedPath u.path ≠ u.path)) :
    escapedPath u = u.path ∨
    (escapedPath u = escapeL allowedPath u.path ∧
      escapeL allowedPath u.path ≠ u.path) := by
  rw [escapedPath]
  split
  · rename_i hcond
    rcases h7 with ⟨hrp, _⟩ | ⟨hrp, _⟩
    · rw [hrp] at hcond
      simp at hcond
    · exact Or.inl hrp
  · split
    · rename_i hstar
      exact Or.inl (by rw [hstar])
    · by_cases hesc : escapeL allowedPath u.path = u.path
      · exact Or.inl hesc
      · exact Or.inr ⟨rfl, hesc⟩

theorem escapedFragment_spec (u : GoURL)
    (h10 : (u.rawFragment = [] ∧
        escapeL allowedFrag u.fragment = u.fragment) ∨
      (u.rawFragment = u.fragment ∧
        escapeL allowedFrag u.fragment ≠ u.fragment)) :
    escapedFragment u = u.fragment ∨
    (escapedFragment u = escapeL allowedFrag u.fragment ∧
      escapeL allowedFrag u.fragment ≠ u.fragment) := by
  rw [escapedFragment]
  split
  · rename_i hcond
    rcases h10 with ⟨hrf, _⟩ | ⟨hrf, _⟩
    · rw [hrf] at hcond
      simp at hcond
    · exact Or.inl hrf
  · by_cases hesc : escapeL allowedFrag u.fragment = u.fragment
    · exact Or.inl hesc
    · exact Or.inr ⟨rfl, hesc⟩

theorem countChar_escapedPath (u : GoURL)
    (h7 : (u.rawPath = [] ∧ (escapeL allowedPath u.path = u.path ∨
        u.path = ['*'])) ∨
      (u.rawPath = u.path ∧ escapeL allowedPath u.path ≠ u.path)) :
    countChar '&' (escapedPath u) = countChar '&' u.path := by
  rcases escapedPath_spec u h7 with he | ⟨he, _⟩
  · rw [he]
  · rw [he]
    exact countChar_escapeL allowedPath hhi_path (by decide) u.path

theorem countChar_escapedFragment (u : GoURL)
    (h10 : (u.rawFragment = [] ∧
        escapeL allowedFrag u.fragment = u.fragment) ∨
      (u.rawFragment = u.fragment ∧
        escapeL allowedFrag u.fragment ≠ u.fragment)) :
    countChar '&' (escapedFragment u) = countChar '&' u.fragment := by
  rcases escapedFragment_spec u h10 with he | ⟨he, _⟩
  · rw [he]
  · rw [he]
    exact countChar_escapeL allowedFrag hhi_frag (by decide) u.fragment

theorem escapedFragment_ne_nil (u : GoURL)
    (h10 : (u.rawFragment = [] ∧
        escapeL allowedFrag u.fragment = u.fragment) ∨
      (u.rawFragment = u.fragment ∧
        escapeL allowedFrag u.fragment ≠ u.fragment))
    (hF : u.fragment ≠ []) : escapedFragment u ≠ [] := by
  rcases escapedFragment_spec u h10 with he | ⟨he, _⟩
  · rw [he]
    exact hF
  · rw [he]
    intro hn
    exact hF ((escapeL_eq_nil_iff _ _).mp hn)

theorem countChar_qpart (FQ : Bool) (RQ : List Char) :
    countChar '&' (if FQ || RQ ≠ [] then '?' :: RQ else []) =
      countChar '&' RQ := by
  split
  · rw [countChar_cons, (by decide : (('?' : Char) == '&') = false)]
    simp
  · rename_i hc
    obtain ⟨h1, h2⟩ := Bool.or_eq_false_iff.mp (bool_false_of_ne_true hc)
    rw [not_not.mp (of_decide_eq_false h2)]

theorem countChar_fpart (u : GoURL)
    (h10 : (u.rawFragment = [] ∧
        escapeL allowedFrag u.fragment = u.fragment) ∨
      (u.rawFragment = u.fragment ∧
        escapeL allowedFrag u.fragment ≠ u.fragment)) :
    countChar '&' (if u.fragment ≠ [] then '#' :: escapedFragment u else []) =
      countChar '&' u.fragment := by
  split
  · rw [countChar_cons, (by decide : (('#' : Char) == '&') = false),
      countChar_escapedFragment u h10]
    simp
  · rename_i hc
    rw [not_not.mp hc]

theorem parseURL_inner_none (I EFv : List Char) (P : Prop) [Decidable P]
    (hI : I.contains '#' = false) (hpi : parseInner I = none) :
    parseURL (I ++ (if P then '#' :: EFv else [])) = none := by
  by_cases hP : P
  · rw [if_pos hP]
    by_cases hEF : EFv = []
    · subst hEF
      rw [parseURL]
      simp only [cutChar_append_sep '#' I [] hI, hpi]
    · rw [parseURL_frag I EFv hI hEF, hpi]
  · rw [if_neg hP, List.append_nil, parseURL_no_frag I hI, hpi]

theorem isPrefOf_slash_escapeL (X : List Char) :
    isPrefOf ['/'] (escapeL allowedPath X) = isPrefOf ['/'] X := by
  cases X with
  | nil => rfl
  | cons c X2 =>
    rw [escapeL]
    by_cases hc : allowedPath c = true
    · rw [if_pos hc]
      simp [isPrefOf]
    · rw [if_neg hc]
      have hcs : c ≠ '/' := by
        intro he
        subst he
        exact hc (by decide)
      simp [isPrefOf, beq_false_of_ne (Ne.symm hcs)]

theorem splitKeep_head (sep : Char) (l : List Char)
    (h : l.head? = some sep) : splitKeep sep l = ([], l) := by
  cases l with
  | nil => exact Option.noConfusion h
  | cons a as =>
    have ha : a = sep := Option.some.inj (show some a = some sep from h)
    subst ha
    rw [splitKeep, if_pos rfl]

theorem isPrefOf_slash2_escapeL (X : List Char) :
    isPrefOf ['/', '/'] (escapeL allowedPath X) = isPrefOf ['/', '/'] X := by
  cases X with
  | nil => rfl
  | cons c X2 =>
    rw [escapeL]
    by_cases hc : allowedPath c = true
    · rw [if_pos hc]
      simp only [isPrefOf, isPrefOf_slash_escapeL]
    · rw [if_neg hc]
      have hcs : c ≠ '/' := by
        intro he
        subst he
        exact hc (by decide)
      simp only [isPrefOf, (by decide : (('/' : Char) == '%') = false),
        beq_false_of_ne (Ne.symm hcs), Bool.false_and]

theorem isPrefOf_slash3_escapeL (X : List Char) :
    isPrefOf ['/', '/', '/'] (escapeL allowedPath X) =
      isPrefOf ['/', '/', '/'] X := by
  cases X with
  | nil => rfl
  | cons c X2 =>
    rw [escapeL]
    by_cases hc : allowedPath c = true
    · rw [if_pos hc]
      simp only [isPrefOf, isPrefOf_slash2_escapeL]
    · rw [if_neg hc]
      have hcs : c ≠ '/' := by
        intro he
        subst he
        exact hc (by decide)
      simp only [isPrefOf, (by decide : (('/' : Char) == '%') = false),
        beq_false_of_ne (Ne.symm hcs), Bool.false_and]

theorem takeWhile_colon_escapeL (P : List Char)
    (h : (P.takeWhile (· ≠ '/')).contains ':' = false) :
    ((escapeL allowedPath P).takeWhile (· ≠ '/')).contains ':' = false := by
  rw [takeWhile_ne_slash_escapeL]
  rw [contains_false_iff] at h ⊢
  intro hm
  exact h (colon_mem_escapeL_of allowedPath hhi_path _ hm)

theorem escapeL_path_ne_star (X : List Char) :
    escapeL allowedPath X ≠ ['*'] := by
  intro he
  have hm : '*' ∈ escapeL allowedPath X := by
    rw [he]
    exact List.mem_singleton.mpr rfl
  rcases mem_escapeL allowedPath hhi_path X '*' hm with h | h | h
  · exact absurd h (by decide)
  · exact absurd h (by decide)
  · exact absurd h (by decide)

theorem allowedUserPassword_high (c : Char) (h : 0x80 ≤ c.val) :
    allowedUserPassword c = true := by
  rw [allowedUserPassword]
  simp [h]

theorem toNat_lt_of_not_allowedUP (c : Char) (h : allowedUserPassword c = false) :
    c.toNat < 128 := by
  by_contra hge
  push_neg at hge
  rw [allowedUserPassword_high c ((le_val_iff c).mpr hge)] at h
  exact Bool.noConfusion h

theorem hhi_up : ∀ c : Char, allowedUserPassword c = false → c.toNat < 128 :=
  toNat_lt_of_not_allowedUP

theorem hex_ne_amp (a : Char) (h : ishexCh a = true) : (a == '&') = false := by
  apply beq_false_of_toNat_ne
  intro he
  rw [ishexCh] at h
  simp only [Bool.or_eq_true, Bool.and_eq_true, decide_eq_true_eq,
    char_le_iff] at h
  rw [show ('&' : Char).toNat = 38 from rfl] at he
  rw [he] at h
  revert h
  decide

theorem count_amp_unescapeL : ∀ l p, unescapeL l = some p →
    countChar '&' l ≤ countChar '&' p := by
  intro l
  induction l using unescapeL.induct with
  | case1 =>
    intro p h
    rw [unescapeL] at h
    cases h
    exact Nat.le_refl _
  | case2 a b t2 hab ih =>
    intro p h
    have hab2 := hab
    rw [Bool.and_eq_true] at hab2
    rw [unescapeL, if_pos rfl, if_pos hab] at h
    cases hq : unescapeL t2 with
    | none =>
      rw [hq] at h
      exact Option.noConfusion h
    | some q =>
      rw [hq] at h
      have hp : p = Char.ofNat (16 * unhexV a + unhexV b) :: q :=
        (Option.some.inj h).symm
      subst hp
      have e1 : countChar '&' ('%' :: a :: b :: t2) = countChar '&' t2 := by
        rw [countChar_cons, countChar_cons, countChar_cons,
          (by decide : (('%' : Char) == '&') = false),
          hex_ne_amp a hab2.1, hex_ne_amp b hab2.2]
        simp
      rw [e1, countChar_cons]
      have h1 := ih q hq
      split <;> omega
  | case3 a b t2 hab =>
    intro p h
    rw [unescapeL, if_pos rfl, if_neg hab] at h
    exact Option.noConfusion h
  | case4 rest hne =>
    intro p h
    cases rest with
    | nil =>
      simp [unescapeL] at h
    | cons x r2 =>
      cases r2 with
      | nil => simp [unescapeL] at h
      | cons y t2 => exact (hne x y t2 rfl).elim
  | case5 c rest hc ih =>
    intro p h
    have hstep : unescapeL (c :: rest) = (unescapeL rest).map fun r => c :: r := by
      rw [unescapeL.eq_def]
      simp [hc]
    rw [hstep] at h
    cases hq : unescapeL rest with
    | none =>
      rw [hq] at h
      exact Option.noConfusion h
    | some q =>
      rw [hq] at h
      have hp : p = c :: q := (Option.some.inj h).symm
      subst hp
      rw [countChar_cons, countChar_cons]
      have h1 := ih q hq
      omega

theorem count_amp_unescapeHostL : ∀ l p, unescapeHostL l = some p →
    countChar '&' l ≤ countChar '&' p := by
  intro l
  induction l using unescapeHostL.induct with
  | case1 =>
    intro p h
    rw [unescapeHostL] at h
    cases h
    exact Nat.le_refl _
  | case2 a b t2 hab hrej =>
    intro p h
    rw [unescapeHostL, if_pos rfl, if_pos hab, if_pos hrej] at h
    exact Option.noConfusion h
  | case3 a b t2 hab hrej ih =>
    intro p h
    have hab2 := hab
    rw [Bool.and_eq_true] at hab2
    rw [unescapeHostL, if_pos rfl, if_pos hab, if_neg hrej] at h
    cases hq : unescapeHostL t2 with
    | none =>
      rw [hq] at h
      exact Option.noConfusion h
    | some q =>
      rw [hq] at h
      have hp : p = Char.ofNat (16 * unhexV a + unhexV b) :: q :=
        (Option.some.inj h).symm
      subst hp
      have e1 : countChar '&' ('%' :: a :: b :: t2) = countChar '&' t2 := by
        rw [countChar_cons, countChar_cons, countChar_cons,
          (by decide : (('%' : Char) == '&') = false),
          hex_ne_amp a hab2.1, hex_ne_amp b hab2.2]
        simp
      rw [e1, countChar_cons]
      have h1 := ih q hq
      split <;> omega
  | case4 a b t2 hab =>
    intro p h
    rw [unescapeHostL, if_pos rfl, if_neg hab] at h
    exact Option.noConfusion h
  | case5 rest hne =>
    intro p h
    cases rest with
    | nil =>
      simp [unescapeHostL] at h
    | cons x r2 =>
      cases r2 with
      | nil => simp [unescapeHostL] at h
      | cons y t2 => exact (hne x y t2 rfl).elim
  | case6 c rest hc hal ih =>
    intro p h
    have hstep : unescapeHostL (c :: rest) =
        (unescapeHostL rest).map fun r => c :: r := by
      rw [unescapeHostL.eq_def]
      simp [hc, hal]
    rw [hstep] at h
    cases hq : unescapeHostL rest with
    | none =>
      rw [hq] at h
      exact Option.noConfusion h
    | some q =>
      rw [hq] at h
      have hp : p = c :: q := (Option.some.inj h).symm
      subst hp
      rw [countChar_cons, countChar_cons]
      have h1 := ih q hq
      omega
  | case7 c rest hc hal =>
    intro p h
    have hstep : unescapeHostL (c :: rest) = none := by
      rw [unescapeHostL.eq_def]
      simp [hc, hal]
    rw [hstep] at h
    exact Option.noConfusion h

theorem count_amp_unescapeZoneL : ∀ l p, unescapeZoneL l = some p →
    countChar '&' l ≤ countChar '&' p := by
  intro l
  induction l using unescapeZoneL.induct with
  | case1 =>
    intro p h
    rw [unescapeZoneL] at h
    cases h
    exact Nat.le_refl _
  | case2 a b t2 hab hrej =>
    intro p h
    rw [unescapeZoneL, if_pos rfl, if_pos hab, if_pos hrej] at h
    exact Option.noConfusion h
  | case3 a b t2 hab hrej ih =>
    intro p h
    have hab2 := hab
    rw [Bool.and_eq_true] at hab2
    rw [unescapeZoneL, if_pos rfl, if_pos hab, if_neg hrej] at h
    cases hq : unescapeZoneL t2 with
    | none =>
      rw [hq] at h
      exact Option.noConfusion h
    | some q =>
      rw [hq] at h
      have hp : p = Char.ofNat (16 * unhexV a + unhexV b) :: q :=
        (Option.some.inj h).symm
      subst hp
      have e1 : countChar '&' ('%' :: a :: b :: t2) = countChar '&' t2 := by
        rw [countChar_cons, countChar_cons, countChar_cons,
          (by decide : (('%' : Char) == '&') = false),
          hex_ne_amp a hab2.1, hex_ne_amp b hab2.2]
        simp
      rw [e1, countChar_cons]
      have h1 := ih q hq
      split <;> omega
  | case4 a b t2 hab =>
    intro p h
    rw [unescapeZoneL, if_pos rfl, if_neg hab] at h
    exact Option.noConfusion h
  | case5 rest hne =>
    intro p h
    cases rest with
    | nil =>
      simp [unescapeZoneL] at h
    | cons x r2 =>
      cases r2 with
      | nil => simp [unescapeZoneL] at h
      | cons y t2 => exact (hne x y t2 rfl).elim
  | case6 c rest hc hal ih =>
    intro p h
    have hstep : unescapeZoneL (c :: rest) =
        (unescapeZoneL rest).map fun r => c :: r := by
      rw [unescapeZoneL.eq_def]
      simp [hc, hal]
    rw [hstep] at h
    cases hq : unescapeZoneL rest with
    | none =>
      rw [hq] at h
      exact Option.noConfusion h
    | some q =>
      rw [hq] at h
      have hp : p = c :: q := (Option.some.inj h).symm
      subst hp
      rw [countChar_cons, countChar_cons]
      have h1 := ih q hq
      omega
  | case7 c rest hc hal =>
    intro p h
    have hstep : unescapeZoneL (c :: rest) = none := by
      rw [unescapeZoneL.eq_def]
      simp [hc, hal]
    rw [hstep] at h
    exact Option.noConfusion h

theorem lastIndexOfC_decomp (c : Char) : ∀ (l : List Char) (i : Nat),
    lastIndexOfC c l = some i → l = l.take i ++ c :: l.drop (i + 1) := by
  intro l
  induction l with
  | nil =>
    intro i h
    exact Option.noConfusion h
  | cons a t ih =>
    intro i h
    rw [lastIndexOfC] at h
    cases hj : lastIndexOfC c t with
    | some j =>
      rw [hj] at h
      have hi : i = j + 1 := (Option.some.inj h).symm
      subst hi
      show a :: t = a :: (t.take j ++ c :: t.drop (j + 1))
      exact congrArg (a :: ·) (ih j hj)
    | none =>
      rw [hj] at h
      by_cases hac : a = c
      · rw [if_pos hac] at h
        have hi : i = 0 := (Option.some.inj h).symm
        subst hi
        subst hac
        rfl
      · rw [if_neg hac] at h
        exact Option.noConfusion h

theorem cutChar_found (sep : Char) : ∀ l : List Char,
    l.contains sep = true → (cutChar sep l).2.2 = true := by
  intro l
  induction l with
  | nil =>
    intro h
    exact Bool.noConfusion h
  | cons a t ih =>
    intro h
    rw [cutChar]
    by_cases hac : a = sep
    · rw [if_pos hac]
    · rw [if_neg hac]
      apply ih
      have hm := (contains_iff_mem _ _).mp h
      rcases List.mem_cons.mp hm with rfl | hm2
      · exact absurd rfl hac
      · exact (contains_iff_mem _ _).mpr hm2

theorem count_amp_parseHost (h H : List Char) (hp : parseHost h = some H) :
    countChar '&' h ≤ countChar '&' H := by
  rw [parseHost] at hp
  split at hp
  · split at hp
    · exact Option.noConfusion hp
    · rename_i i hli
      split at hp
      · exact Option.noConfusion hp
      · split at hp
        · rename_i zone hz
          split at hp
          · rename_i q1 q2 q3 h1e h2e h3e
            have hH : H = q1 ++ q2 ++ q3 := (Option.some.inj hp).symm
            subst hH
            have c1 := count_amp_unescapeHostL _ q1 h1e
            have c2 := count_amp_unescapeZoneL _ q2 h2e
            have c3 := count_amp_unescapeHostL _ q3 h3e
            have hsplit1 : countChar '&' h =
                countChar '&' (h.take i) + countChar '&' (h.drop i) := by
              conv_lhs => rw [← List.take_append_drop i h]
              rw [countChar_append]
            have hsplit2 : countChar '&' (h.take i) =
                countChar '&' ((h.take i).take zone) +
                  countChar '&' ((h.take i).drop zone) := by
              conv_lhs => rw [← List.take_append_drop zone (h.take i)]
              rw [countChar_append]
            rw [countChar_append, countChar_append]
            omega
          · exact Option.noConfusion hp
        · exact count_amp_unescapeHostL h H hp
  · split at hp
    · split at hp
      · exact Option.noConfusion hp
      · exact count_amp_unescapeHostL h H hp
    · exact count_amp_unescapeHostL h H hp

theorem count_amp_parseAuthority (A : List Char)
    (us : Option (List Char × Option (List Char))) (H : List Char)
    (hp : parseAuthority A = some (us, H)) :
    countChar '&' A ≤ userCnt us + countChar '&' H := by
  rw [parseAuthority] at hp
  split at hp
  · -- no at sign
    split at hp
    · exact Option.noConfusion hp
    · rename_i h0 hh
      have hpair := Option.some.inj hp
      have hus : us = none := (congrArg Prod.fst hpair).symm
      have hH : H = h0 := (congrArg Prod.snd hpair).symm
      subst hus
      subst hH
      have hc := count_amp_parseHost A H hh
      show countChar '&' A ≤ 0 + countChar '&' H
      omega
  · rename_i i hli
    split at hp
    · exact Option.noConfusion hp
    · rename_i h0 hh
      simp only [] at hp
      have hdec := lastIndexOfC_decomp '@' A i hli
      have hcnt : countChar '&' A =
          countChar '&' (A.take i) + countChar '&' (A.drop (i + 1)) := by
        conv_lhs => rw [hdec]
        rw [countChar_append, countChar_cons,
          (by decide : (('@' : Char) == '&') = false)]
        simp
      split at hp
      · exact Option.noConfusion hp
      · split at hp
        · split at hp
          · exact Option.noConfusion hp
          · rename_i un hun
            have hpair := Option.some.inj hp
            have hus : us = some (un, none) := (congrArg Prod.fst hpair).symm
            have hH : H = h0 := (congrArg Prod.snd hpair).symm
            subst hus
            subst hH
            have c1 := count_amp_unescapeL _ un hun
            have c2 := count_amp_parseHost _ H hh
            show countChar '&' A ≤ countChar '&' un + 0 + countChar '&' H
            omega
        · rename_i hcol
          split at hp
          · rename_i un pw hun hpw
            have hcont : (A.take i).contains ':' = true := by
              cases hx : (A.take i).contains ':' with
              | true => rfl
              | false => exact absurd (by rw [hx]; rfl) hcol
            have hsplit := cutChar_inv_true ':' (A.take i)
              (cutChar ':' (A.take i)).1 (cutChar ':' (A.take i)).2.1 (by
                have hfound := cutChar_found ':' (A.take i) hcont
                rw [← hfound])
            have hpair := Option.some.inj hp
            have hus : us = some (un, some pw) := (congrArg Prod.fst hpair).symm
            have hH : H = h0 := (congrArg Prod.snd hpair).symm
            subst hus
            subst hH
            have c1 := count_amp_unescapeL _ un hun
            have c2 := count_amp_unescapeL _ pw hpw
            have c3 := count_amp_parseHost _ H hh
            have hcnt2 : countChar '&' (A.take i) =
                countChar '&' (cutChar ':' (A.take i)).1 +
                  countChar '&' (cutChar ':' (A.take i)).2.1 := by
              conv_lhs => rw [hsplit.1]
              rw [countChar_append, countChar_cons,
                (by decide : ((':' : Char) == '&') = false)]
              simp
            show countChar '&' A ≤
              countChar '&' un + countChar '&' pw + countChar '&' H
            omega
          · exact Option.noConfusion hp

theorem setPathGo_spec (raw : List Char) (b v : GoURL)
    (h : setPathGo raw b = some v) :
    ∃ p, unescapeL raw = some p ∧
      v = { b with
        path := p
        rawPath := if escapeL allowedPath p = raw then [] else raw } := by
  rw [setPathGo] at h
  cases hu : unescapeL raw with
  | none =>
    rw [hu] at h
    exact Option.noConfusion h
  | some p =>
    rw [hu] at h
    exact ⟨p, rfl, (Option.some.inj h).symm⟩

theorem setFragmentGo_spec (raw : List Char) (b v : GoURL)
    (h : setFragmentGo raw b = some v) :
    ∃ p, unescapeL raw = some p ∧
      v = { b with
        fragment := p
        rawFragment := if escapeL allowedFrag p = raw then [] else raw } := by
  rw [setFragmentGo] at h
  cases hu : unescapeL raw with
  | none =>
    rw [hu] at h
    exact Option.noConfusion h
  | some p =>
    rw [hu] at h
    exact ⟨p, rfl, (Option.some.inj h).symm⟩

theorem count_amp_escapedPath (u : GoURL) (raw : List Char)
    (hu : unescapeL raw = some u.path)
    (hrp : u.rawPath = (if escapeL allowedPath u.path = raw then [] else raw)) :
    countChar '&' raw ≤ countChar '&' (escapedPath u) := by
  have hdec := count_amp_unescapeL raw u.path hu
  rw [escapedPath]
  by_cases he : escapeL allowedPath u.path = raw
  · rw [if_pos he] at hrp
    split
    · rename_i hcond
      rw [hrp] at hcond
      simp at hcond
    · split
      · rename_i hstar
        rw [hstar] at hdec
        exact hdec
      · rw [he]
  · rw [if_neg he] at hrp
    split
    · rw [hrp]
    · split
      · rename_i hstar
        rw [hstar] at hdec
        exact hdec
      · rw [countChar_escapeL allowedPath hhi_path (by decide)]
        exact hdec

theorem count_amp_escapedFragment (u : GoURL) (raw : List Char)
    (hu : unescapeL raw = some u.fragment)
    (hrf : u.rawFragment =
      (if escapeL allowedFrag u.fragment = raw then [] else raw)) :
    countChar '&' raw ≤ countChar '&' (escapedFragment u) := by
  have hdec := count_amp_unescapeL raw u.fragment hu
  rw [escapedFragment]
  by_cases he : escapeL allowedFrag u.fragment = raw
  · rw [if_pos he] at hrf
    split
    · rename_i hcond
      rw [hrf] at hcond
      simp at hcond
    · rw [he]
  · rw [if_neg he] at hrf
    split
    · rw [hrf]
    · rw [countChar_escapeL allowedFrag hhi_frag (by decide)]
      exact hdec

theorem countChar_userPart (uo : Option (List Char × Option (List Char))) :
    countChar '&' (match uo with
      | none => ([] : List Char)
      | some us => userString us ++ ['@']) = userCnt uo := by
  cases uo with
  | none => rfl
  | some us =>
    obtain ⟨un, pw⟩ := us
    cases pw with
    | none =>
      show countChar '&' (userString (un, none) ++ ['@']) =
        userCnt (some (un, none))
      rw [userString]
      show countChar '&' (escapeL allowedUserPassword un ++ [] ++ ['@']) = _
      rw [List.append_nil, countChar_append,
        countChar_escapeL allowedUserPassword hhi_up (by decide),
        (by decide : countChar '&' ['@'] = 0)]
      show countChar '&' un + 0 = countChar '&' un + 0
      rfl
    | some pw =>
      show countChar '&' (userString (un, some pw) ++ ['@']) =
        userCnt (some (un, some pw))
      rw [userString]
      show countChar '&' (escapeL allowedUserPassword un ++
        (':' :: escapeL allowedUserPassword pw) ++ ['@']) = _
      rw [countChar_append, countChar_append, countChar_cons,
        countChar_escapeL allowedUserPassword hhi_up (by decide),
        countChar_escapeL allowedUserPassword hhi_up (by decide),
        (by decide : countChar '&' ['@'] = 0),
        (by decide : ((':' : Char) == '&') = false)]
      show countChar '&' un + (countChar '&' pw +
        (if false = true then 1 else 0)) + 0 =
        countChar '&' un + countChar '&' pw
      simp

theorem countChar_schemePart (S : List Char) :
    countChar '&' (if S ≠ [] then S ++ [':'] else []) = countChar '&' S := by
  split
  · rw [countChar_append, (by decide : countChar '&' [':'] = 0)]
    omega
  · rename_i h
    rw [not_not.mp h]

theorem countChar_urlString (u : GoURL) :
    countChar '&' (urlString u) =
      (if u.opq ≠ [] then countChar '&' u.scheme + countChar '&' u.opq
       else countChar '&' u.scheme + userCnt u.user + countChar '&' u.host +
         countChar '&' (escapedPath u)) +
      countChar '&' u.rawQuery +
      (if u.fragment ≠ [] then countChar '&' (escapedFragment u) else 0) := by
  rw [urlString]
  simp only []
  rw [countChar_append, countChar_append, countChar_qpart]
  have hf : countChar '&'
      (if u.fragment ≠ [] then '#' :: escapedFragment u else []) =
      (if u.fragment ≠ [] then countChar '&' (escapedFragment u) else 0) := by
    split
    · rw [countChar_cons, (by decide : (('#' : Char) == '&') = false)]
      simp
    · rfl
  rw [hf]
  by_cases ho : u.opq ≠ []
  · rw [if_pos ho, if_pos ho, countChar_append, countChar_schemePart]
  · rw [if_neg ho, if_neg ho]
    rw [countChar_append, countChar_append, countChar_append, countChar_append,
      countChar_schemePart]
    have hsf : countChar '&' (if u.host ≠ [] &&
        escapedPath u ≠ [] && (escapedPath u).head? ≠ some '/' then ['/']
        else []) = 0 := by
      split
      · decide
      · rfl
    have hdf : ∀ c : Prop, ∀ inst : Decidable c,
        countChar '&' (@ite _ c inst (['.', '/'] : List Char) []) = 0 := by
      intro c inst
      split
      · decide
      · rfl
    have hauth : countChar '&'
        (if u.scheme ≠ [] || u.host ≠ [] || u.user ≠ none then
          if u.omitHost && u.host = [] && u.user = none then []
          else
            (if u.host ≠ [] || u.path ≠ [] || u.user ≠ none then ['/', '/']
             else []) ++
              (match u.user with
               | none => []
               | some us => userString us ++ ['@']) ++
              escapeL allowedHost u.host
        else []) = userCnt u.user + countChar '&' u.host := by
      split
      · split
        · rename_i homit
          rw [Bool.and_eq_true, Bool.and_eq_true] at homit
          have hh : u.host = [] := of_decide_eq_true homit.1.2
          have hu : u.user = none := of_decide_eq_true homit.2
          rw [hh, hu]
          rfl
        · rw [countChar_append, countChar_append, countChar_userPart,
            countChar_escapeL allowedHost hhi_host (by decide)]
          have hsl : countChar '&'
              (if u.host ≠ [] || u.path ≠ [] || u.user ≠ none then
                (['/', '/'] : List Char) else []) = 0 := by
            split
            · decide
            · rfl
          rw [hsl]
          omega
      · rename_i hout
        have hout2 : (decide (u.scheme ≠ []) || decide (u.host ≠ []) ||
            decide (u.user ≠ none)) = false := bool_false_of_ne_true hout
        rw [Bool.or_eq_false_iff, Bool.or_eq_false_iff] at hout2
        have hh : u.host = [] := not_not.mp (of_decide_eq_false hout2.1.2)
        have hu : u.user = none := not_not.mp (of_decide_eq_false hout2.2)
        rw [hh, hu]
        rfl
    rw [hauth, hsf, hdf]
    omega

theorem countChar_nil (c : Char) : countChar c [] = 0 := rfl

theorem queryCut_count (r0 rest rq : List Char) (fq : Bool)
    (h : queryCut r0 = (rest, fq, rq)) :
    countChar '&' r0 = countChar '&' rest + countChar '&' rq := by
  rcases queryCut_inv r0 rest rq fq h with ⟨-, ⟨-, h2, h3⟩ | ⟨-, h2, h3⟩ | ⟨-, h3⟩⟩
  · rw [h3, h2, countChar_append]
    rfl
  · rw [h3, h2, countChar_nil]
    omega
  · rw [h3, countChar_append, countChar_cons,
      (by decide : (('?' : Char) == '&') = false), if_neg Bool.false_ne_true]
    omega

theorem count_amp_setPathGo (raw : List Char) (b v : GoURL)
    (h : setPathGo raw b = some v) :
    countChar '&' raw ≤ countChar '&' (escapedPath v) ∧
    v.fragment = b.fragment ∧ v.rawFragment = b.rawFragment ∧
    v.scheme = b.scheme ∧ v.opq = b.opq ∧ v.user = b.user ∧
    v.host = b.host ∧ v.rawQuery = b.rawQuery := by
  obtain ⟨p, hup, hv⟩ := setPathGo_spec raw b v h
  subst hv
  refine ⟨?_, rfl, rfl, rfl, rfl, rfl, rfl, rfl⟩
  exact count_amp_escapedPath
    { b with
      path := p
      rawPath := if escapeL allowedPath p = raw then [] else raw } raw hup rfl

theorem parseInnerCore_count (sch rest0 : List Char) (v : GoURL)
    (h : parseInnerCore sch rest0 = some v) :
    v.fragment = [] ∧ v.rawFragment = [] ∧ v.scheme = sch ∧
    countChar '&' rest0 + countChar '&' sch ≤
      (if v.opq ≠ [] then countChar '&' v.scheme + countChar '&' v.opq
       else countChar '&' v.scheme + userCnt v.user + countChar '&' v.host +
         countChar '&' (escapedPath v)) + countChar '&' v.rawQuery := by
  rw [parseInnerCore] at h
  simp only [] at h
  rcases hqq : queryCut rest0 with ⟨rest, FQ, RQ⟩
  rw [hqq] at h
  simp only [] at h
  have hq := queryCut_count rest0 rest RQ FQ hqq
  split at h
  · split at h
    · injection h with h
      subst h
      refine ⟨rfl, rfl, rfl, ?_⟩
      simp only []
      split
      · omega
      · rename_i hre
        rw [not_not] at hre
        subst hre
        rw [countChar_nil] at hq
        omega
    · split at h
      · exact Option.noConfusion h
      · obtain ⟨hep, hf, hrf, hs, hopq, huser, hhost, hrq⟩ :=
          count_amp_setPathGo _ _ _ h
        refine ⟨hf, hrf, hs, ?_⟩
        rw [if_neg (fun hc => hc hopq),
          (show v.scheme = sch from hs), (show v.user = none from huser),
          (show v.host = [] from hhost), (show v.rawQuery = RQ from hrq),
          userCnt, countChar_nil]
        omega
  · split at h
    · rename_i hpp
      rw [Bool.and_eq_true] at hpp
      obtain ⟨t, ht⟩ := (isPrefOf_iff _ _).mp hpp.1
      have hd2 : countChar '&' rest = countChar '&' (rest.drop 2) := by
        rw [ht]
        show countChar '&' ('/' :: '/' :: t) = countChar '&' t
        rw [countChar_cons, countChar_cons,
          (by decide : (('/' : Char) == '&') = false), if_neg Bool.false_ne_true]
        omega
      split at h
      · exact Option.noConfusion h
      · rename_i uh hpa
        obtain ⟨hep, hf, hrf, hs, hopq, huser, hhost, hrq⟩ :=
          count_amp_setPathGo _ _ _ h
        refine ⟨hf, hrf, hs, ?_⟩
        obtain ⟨hsplit, -, -⟩ := splitKeep_inv '/' (rest.drop 2)
          (splitKeep '/' (rest.drop 2)).1 (splitKeep '/' (rest.drop 2)).2 rfl
        have hA := count_amp_parseAuthority _ uh.1 uh.2 hpa
        have hd3 : countChar '&' (rest.drop 2) =
            countChar '&' (splitKeep '/' (rest.drop 2)).1 +
            countChar '&' (splitKeep '/' (rest.drop 2)).2 := by
          conv_lhs => rw [hsplit]
          rw [countChar_append]
        rw [if_neg (fun hc => hc hopq),
          (show v.scheme = sch from hs), (show v.user = uh.1 from huser),
          (show v.host = uh.2 from hhost), (show v.rawQuery = RQ from hrq)]
        omega
    · obtain ⟨hep, hf, hrf, hs, hopq, huser, hhost, hrq⟩ :=
        count_amp_setPathGo _ _ _ h
      refine ⟨hf, hrf, hs, ?_⟩
      rw [if_neg (fun hc => hc hopq),
        (show v.scheme = sch from hs), (show v.user = none from huser),
        (show v.host = [] from hhost), (show v.rawQuery = RQ from hrq),
        userCnt, countChar_nil]
      omega

theorem count_amp_setFragmentGo (raw : List Char) (b v : GoURL)
    (h : setFragmentGo raw b = some v) :
    countChar '&' raw ≤
      (if v.fragment ≠ [] then countChar '&' (escapedFragment v) else 0) ∧
    v.scheme = b.scheme ∧ v.opq = b.opq ∧ v.user = b.user ∧ v.host = b.host ∧
    v.rawQuery = b.rawQuery ∧ escapedPath v = escapedPath b := by
  obtain ⟨F, hF, hv⟩ := setFragmentGo_spec raw b v h
  subst hv
  refine ⟨?_, rfl, rfl, rfl, rfl, rfl, rfl⟩
  simp only []
  by_cases hFe : F = []
  · rw [if_neg (fun hc => hc hFe)]
    have h0 := count_amp_unescapeL raw F hF
    rw [hFe, countChar_nil] at h0
    exact h0
  · rw [if_pos hFe]
    exact count_amp_escapedFragment
      { b with
        fragment := F
        rawFragment := if escapeL allowedFrag F = raw then [] else raw } raw hF rfl

theorem parseInner_count (I : List Char) (v : GoURL)
    (h : parseInner I = some v) :
    v.fragment = [] ∧ v.rawFragment = [] ∧
    countChar '&' I ≤
      (if v.opq ≠ [] then countChar '&' v.scheme + countChar '&' v.opq
       else countChar '&' v.scheme + userCnt v.user + countChar '&' v.host +
         countChar '&' (escapedPath v)) + countChar '&' v.rawQuery := by
  rw [parseInner] at h
  split at h
  · exact Option.noConfusion h
  · split at h
    · rename_i hstar
      injection h with h
      subst h
      refine ⟨rfl, rfl, ?_⟩
      rw [hstar, (by decide : countChar '&' (['*'] : List Char) = 0)]
      exact Nat.zero_le _
    · split at h
      · exact Option.noConfusion h
      · rename_i sch0 rest0 hgs
        obtain ⟨hf, hrf, hsch, hcount⟩ := parseInnerCore_count _ _ _ h
        refine ⟨hf, hrf, ?_⟩
        have hg : countChar '&' (goToLower sch0) = countChar '&' sch0 :=
          countChar_goToLower sch0
        rcases getSchemeGo_inv I sch0 rest0 hgs with ⟨h1, h2⟩ | ⟨h1, -⟩
        · subst h1
          rw [countChar_nil] at hg
          rw [← h2]
          omega
        · rw [h1, countChar_append, countChar_cons,
            (by decide : ((':' : Char) == '&') = false), if_neg Bool.false_ne_true]
          omega

/-- C6, counterexample: normalization is not idempotent.  On the input
"%2F/a@b@h/ x" the first normalization keeps the at signs raw (path mode)
and yields "//a@b@h/%20x"; normalizing again re-parses that string as an
authority, splits userinfo from host at the last at sign, and
percent-escapes the at sign inside the userinfo, producing the different
string "//a%40b@h/%20x". -/
theorem c6_counterexample :
    urlEncode ("%2F/a@b@h/ x").data = ("//a@b@h/%20x").data ∧
    urlEncode ("//a@b@h/%20x").data = ("//a%40b@h/%20x").data ∧
    urlEncode (urlEncode ("%2F/a@b@h/ x").data) ≠
      urlEncode ("%2F/a@b@h/ x").data :=
  ⟨by decide, by decide, by decide⟩

/-- C6, amended: normalization never converts a literal ampersand into an
escaped form: every stage of the serializer keeps raw ampersands (they are
allowed in every escaping mode) and percent-decoding can only create new
ones, so the normalized output contains at least as many ampersand
characters as the input. -/
theorem c6_amended (s : List Char) :
    countChar '&' s ≤ countChar '&' (urlEncode s) := by
  rw [urlEncode]
  cases hp : parseURL s with
  | none => exact Nat.le_refl _
  | some u =>
    have hs : countChar '&' s =
        countChar '&' (cutChar '#' s).1 + countChar '&' (cutChar '#' s).2.1 := by
      cases hfl : (cutChar '#' s).2.2 with
      | true =>
        obtain ⟨d1, -⟩ := cutChar_inv_true '#' s (cutChar '#' s).1
          (cutChar '#' s).2.1 (by rw [← hfl])
        conv_lhs => rw [d1]
        rw [countChar_append, countChar_cons,
          (by decide : (('#' : Char) == '&') = false), if_neg Bool.false_ne_true]
        omega
      | false =>
        obtain ⟨d1, d2, -⟩ := cutChar_inv_false '#' s (cutChar '#' s).1
          (cutChar '#' s).2.1 (by rw [← hfl])
        rw [d1, d2, countChar_nil]
        omega
    rw [parseURL] at hp
    split at hp
    · exact Option.noConfusion hp
    · rename_i w hpi
      obtain ⟨hwf, hwrf, hwc⟩ := parseInner_count _ _ hpi
      split at hp
      · rename_i hfe
        injection hp with hp
        subst hp
        have hfr0 : (if w.fragment ≠ [] then countChar '&' (escapedFragment w)
            else 0) = 0 := by simp [hwf]
        rw [countChar_urlString, hfr0]
        rw [hfe, countChar_nil] at hs
        omega
      · obtain ⟨hfr, hsch, hopq, huser, hhost, hrq, hepeq⟩ :=
          count_amp_setFragmentGo _ _ _ hp
        rw [countChar_urlString, hsch, hopq, huser, hhost, hrq, hepeq]
        omega


end CoachAI
